import Mathlib

set_option autoImplicit false

/-
Verification of the JSON utility layer (threading_json_utils.py,
asyncio_json_utils.py, multiprocessing_json_utils.py).

Modelling conventions:
* Python strings are modelled as `List Char` (`Str`), so that splitting on a
  separator and joining with a separator can be reasoned about by induction.
* A decoded JSON document is the inductive type `Json`; a Python `dict` is an
  association list `List (Str × Json)` whose insertion (`insertD`) overwrites
  an existing key in place and otherwise appends, exactly like CPython dicts.
* Python `None` is `Json.null`; the absence marker returned by the per-item
  load helpers (`return path, None` / `return None`) is therefore `Json.null`.
* Python `==` on decoded JSON values is the function `pyEq`, including the
  `True == 1` / `False == 0` numeric coercion of Python bools.
-/

namespace JsonEngine

/-- Python strings, modelled as lists of characters. -/
abbrev Str := List Char

/-- A decoded JSON document: mapping, sequence, string, number, boolean or
null.  Numbers are modelled as integers (no claim exercises float
behaviour). -/
inductive Json where
  | null : Json
  | bool : Bool → Json
  | num : Int → Json
  | str : Str → Json
  | arr : List Json → Json
  | obj : List (Str × Json) → Json

instance : Inhabited Json := ⟨Json.null⟩

/-- First-match lookup in a Python dict (keys are unique in a real dict). -/
def lookupD : List (Str × Json) → Str → Option Json
  | [], _ => none
  | (k, v) :: fs, key => if k = key then some v else lookupD fs key

/-- Python dict membership test (`key in d`). -/
def memD (d : List (Str × Json)) (key : Str) : Bool :=
  (lookupD d key).isSome

/-- Python dict assignment `d[key] = v`: overwrite in place if the key is
present (keeping its position), otherwise append at the end. -/
def insertD : List (Str × Json) → Str → Json → List (Str × Json)
  | [], key, v => [(key, v)]
  | (k, w) :: fs, key, v =>
    if k = key then (k, v) :: fs else (k, w) :: insertD fs key v

/-- `d.get(key)` with the default `None`. -/
def pyGet (d : List (Str × Json)) (key : Str) : Json :=
  (lookupD d key).getD Json.null

/-- The keys of a dict are pairwise distinct (a real Python dict invariant). -/
def nodupKeysB : List (Str × Json) → Bool
  | [] => true
  | (k, _) :: fs => !(fs.any (fun kv => kv.1 = k)) && nodupKeysB fs

mutual

/-- Size measure on documents, used for termination of the stack loops. -/
def jsize : Json → Nat
  | .null => 1
  | .bool _ => 1
  | .num _ => 1
  | .str _ => 1
  | .arr xs => 1 + lsize xs
  | .obj fs => 1 + osize fs

/-- Total size of a list of documents. -/
def lsize : List Json → Nat
  | [] => 0
  | x :: xs => jsize x + lsize xs

/-- Total size of the values of a field list. -/
def osize : List (Str × Json) → Nat
  | [] => 0
  | (_, v) :: fs => jsize v + osize fs

end

mutual

/-- Python `==` on decoded JSON values.  Dicts compare as unordered maps;
Python bools compare equal to the integers 1 and 0. -/
def pyEq : Json → Json → Bool
  | .null, .null => true
  | .bool a, .bool b => a = b
  | .bool a, .num n => decide ((if a then (1 : Int) else 0) = n)
  | .num n, .bool a => decide (n = if a then (1 : Int) else 0)
  | .num a, .num b => a = b
  | .str a, .str b => a = b
  | .arr xs, .arr ys => pyEqL xs ys
  | .obj fs, .obj gs => decide (fs.length = gs.length) && pyEqO fs gs
  | _, _ => false

/-- Python `==` on lists: pointwise, same length. -/
def pyEqL : List Json → List Json → Bool
  | [], [] => true
  | x :: xs, y :: ys => pyEq x y && pyEqL xs ys
  | _, _ => false

/-- One inclusion of Python dict `==`: every entry of the first dict is
matched by an equal value under the same key in the second. -/
def pyEqO : List (Str × Json) → List (Str × Json) → Bool
  | [], _ => true
  | (k, v) :: fs, gs =>
    (match lookupD gs k with
     | some w => pyEq v w
     | none => false) && pyEqO fs gs

end

-- ---------------------------------------------------------------------------
-- Basic size lemmas (termination of the explicit-stack loops).
-- ---------------------------------------------------------------------------

theorem lsize_append (a b : List Json) : lsize (a ++ b) = lsize a + lsize b := by
  induction a with
  | nil => simp [lsize]
  | cons x xs ih => simp [lsize, ih]; omega

theorem lsize_reverse (a : List Json) : lsize a.reverse = lsize a := by
  induction a with
  | nil => rfl
  | cons x xs ih => simp [lsize, List.reverse_cons, lsize_append, ih]; omega

theorem lsize_map_snd (fs : List (Str × Json)) :
    lsize (fs.map Prod.snd) = osize fs := by
  induction fs with
  | nil => rfl
  | cons kv fs ih => cases kv; simp [lsize, osize, ih]

theorem jsize_pos (j : Json) : 1 ≤ jsize j := by
  cases j <;> simp [jsize] <;> omega

-- ---------------------------------------------------------------------------
-- JSONUtils.search_nested_key (threading_json_utils.py, lines 138-165).
-- ---------------------------------------------------------------------------

/-- The `while stack:` loop of `search_nested_key`.  The head of the list is
the top of the stack (Python pushes and pops at the end of its list).  For a
dict, all values are pushed in field order (so the last field ends on top)
and the values under a matching key are appended to `found` in field order;
for a list, all elements are pushed; scalars are dropped. -/
def searchLoop (searchKey : Str) : List Json → List Json → List Json
  | [], found => found
  | .obj fs :: stack, found =>
    searchLoop searchKey ((fs.map Prod.snd).reverse ++ stack)
      (found ++ fs.filterMap (fun kv => if kv.1 = searchKey then some kv.2 else none))
  | .arr xs :: stack, found =>
    searchLoop searchKey (xs.reverse ++ stack) found
  | j :: stack, found => searchLoop searchKey stack found
  termination_by stack _ => lsize stack
  decreasing_by
  · simp [lsize, jsize, lsize_append, lsize_reverse, lsize_map_snd]
  · simp [lsize, jsize, lsize_append, lsize_reverse]
  · simp only [lsize]
    have := jsize_pos j
    omega

/-- `JSONUtils.search_nested_key`: search nested JSON for all values
associated with a specific key, with an explicit stack. -/
def search_nested_key (data : Json) (searchKey : Str) : List Json :=
  searchLoop searchKey [data] []

/-- The document of the C8 scenario. -/
def exDoc8 : Json :=
  .obj [("a".toList, .obj [("b".toList, .obj [("target".toList, .num 1)])]),
        ("target".toList, .num 2)]

/-- C8: `search_nested_key({"a": {"b": {"target": 1}}, "target": 2},
"target")` returns a list whose multiset of elements equals `{1, 2}`
(the concrete discovery order of the stack loop is `[2, 1]`). -/
theorem C8_search_multiset :
    (search_nested_key exDoc8 "target".toList).Perm [Json.num 1, Json.num 2] := by
  have h : search_nested_key exDoc8 "target".toList = [Json.num 2, Json.num 1] := by
    simp [search_nested_key, searchLoop, exDoc8]
  rw [h]
  exact (List.Perm.swap _ _ _).symm

-- ---------------------------------------------------------------------------
-- Dict lemmas shared by the merge / diff / batch claims.
-- ---------------------------------------------------------------------------

theorem lookupD_insertD (d : List (Str × Json)) (k : Str) (v : Json) (key : Str) :
    lookupD (insertD d k v) key = if k = key then some v else lookupD d key := by
  induction d with
  | nil => simp [insertD, lookupD]
  | cons kv fs ih =>
    obtain ⟨k0, w⟩ := kv
    simp only [insertD]
    by_cases h0 : k0 = k
    · subst h0
      simp only [if_pos rfl, lookupD]
      by_cases h1 : k0 = key
      · simp [h1]
      · simp [h1]
    · simp only [if_neg h0, lookupD]
      by_cases h1 : k0 = key
      · have hk : ¬ k = key := fun hc => h0 (h1.trans hc.symm)
        simp [h1, hk]
      · simp [h1, ih]

theorem lookupD_eq_none_of_not_any (l : List (Str × Json)) (k : Str)
    (h : l.any (fun kv => kv.1 = k) = false) : lookupD l k = none := by
  induction l with
  | nil => rfl
  | cons kv fs ih =>
    obtain ⟨k0, w⟩ := kv
    simp only [List.any_cons, Bool.or_eq_false_iff] at h
    have hk0 : ¬ k0 = k := by simpa using h.1
    simp [lookupD, if_neg hk0, ih h.2]

/-- Python `d.update(entries)`: assign every entry, in order. -/
def updateD (d entries : List (Str × Json)) : List (Str × Json) :=
  entries.foldl (fun acc kv => insertD acc kv.1 kv.2) d

theorem lookupD_updateD (d : List (Str × Json)) (entries : List (Str × Json))
    (key : Str) (h : nodupKeysB entries = true) :
    lookupD (updateD d entries) key =
      match lookupD entries key with
      | some v => some v
      | none => lookupD d key := by
  induction entries generalizing d with
  | nil => simp [updateD, lookupD]
  | cons kv rest ih =>
    obtain ⟨k0, v0⟩ := kv
    simp only [nodupKeysB, Bool.and_eq_true] at h
    have hstep : updateD d ((k0, v0) :: rest) = updateD (insertD d k0 v0) rest := rfl
    rw [hstep, ih _ h.2]
    by_cases hk : k0 = key
    · subst hk
      have hnone : lookupD rest k0 = none := by
        apply lookupD_eq_none_of_not_any
        simpa using h.1
      simp [lookupD, hnone, lookupD_insertD]
    · simp [lookupD, if_neg hk, lookupD_insertD]

-- ---------------------------------------------------------------------------
-- JSONUtils.merge_json (threading_json_utils.py, lines 122-136).
-- ---------------------------------------------------------------------------

/-- `JSONUtils.merge_json`: `result = dict1.copy(); result.update(dict2);
return result`. -/
def merge_json (dict1 dict2 : List (Str × Json)) : List (Str × Json) :=
  updateD dict1 dict2

/-- C5: the merge result's key set is the union of both key sets; every key of
`dict2` maps to its `dict2` value, and every key of `dict1` absent from
`dict2` maps to its `dict1` value (shallow merge). -/
theorem C5_merge_shallow (dict1 dict2 : List (Str × Json)) (key : Str)
    (h2 : nodupKeysB dict2 = true) :
    memD (merge_json dict1 dict2) key = (memD dict1 key || memD dict2 key) ∧
    (∀ v, lookupD dict2 key = some v → lookupD (merge_json dict1 dict2) key = some v) ∧
    (lookupD dict2 key = none → lookupD (merge_json dict1 dict2) key = lookupD dict1 key) := by
  have hchar := lookupD_updateD dict1 dict2 key h2
  refine ⟨?_, ?_, ?_⟩
  · show (lookupD (updateD dict1 dict2) key).isSome = _
    rw [hchar]
    cases hl : lookupD dict2 key <;> simp [memD, hl]
  · intro v hv
    show lookupD (updateD dict1 dict2) key = some v
    rw [hchar, hv]
  · intro hv
    show lookupD (updateD dict1 dict2) key = lookupD dict1 key
    rw [hchar, hv]

/-- Concrete instance for the witness of C5. -/
def mw1 : List (Str × Json) := [("a".toList, .num 1), ("c".toList, .num 3)]

/-- Concrete instance for the witness of C5. -/
def mw2 : List (Str × Json) := [("a".toList, .num 2), ("b".toList, .num 4)]

/-- Witness for C5 at concrete dicts `{a: 1, c: 3}` and `{a: 2, b: 4}`. -/
theorem C5_merge_shallow_witness :
    nodupKeysB mw2 = true ∧
    (memD (merge_json mw1 mw2) "a".toList =
        (memD mw1 "a".toList || memD mw2 "a".toList) ∧
      (∀ v, lookupD mw2 "a".toList = some v →
        lookupD (merge_json mw1 mw2) "a".toList = some v) ∧
      (lookupD mw2 "a".toList = none →
        lookupD (merge_json mw1 mw2) "a".toList = lookupD mw1 "a".toList)) :=
  ⟨by decide, C5_merge_shallow mw1 mw2 "a".toList (by decide)⟩

-- ---------------------------------------------------------------------------
-- JSONUtils.diff_json (threading_json_utils.py, lines 412-428).
-- ---------------------------------------------------------------------------

/-- The key set `set(dict1) | set(dict2)`.  Python iterates it in an arbitrary
order; the model fixes the order (keys of `dict1`, then the new keys of
`dict2`), and the claims are stated through `lookupD`, which is
order-independent. -/
def unionKeys (dict1 dict2 : List (Str × Json)) : List Str :=
  dict1.map Prod.fst ++ (dict2.map Prod.fst).filter (fun k => !(memD dict1 k))

/-- The `{"old": ..., "new": ...}` entry built by `diff_json` for a key. -/
def diffEntry (dict1 dict2 : List (Str × Json)) (key : Str) : Json :=
  .obj [("old".toList, pyGet dict1 key), ("new".toList, pyGet dict2 key)]

/-- `JSONUtils.diff_json`: for every key of the union where
`dict1.get(key) != dict2.get(key)`, record `{"old": ..., "new": ...}`. -/
def diff_json (dict1 dict2 : List (Str × Json)) : List (Str × Json) :=
  (unionKeys dict1 dict2).foldl
    (fun acc key =>
      if pyEq (pyGet dict1 key) (pyGet dict2 key) then acc
      else insertD acc key (diffEntry dict1 dict2 key))
    []

theorem memD_iff_mem_keys (d : List (Str × Json)) (k : Str) :
    memD d k = true ↔ k ∈ d.map Prod.fst := by
  induction d with
  | nil => simp [memD, lookupD]
  | cons kv fs ih =>
    obtain ⟨k0, v⟩ := kv
    by_cases h : k0 = k
    · subst h; simp [memD, lookupD]
    · simp only [memD, lookupD, if_neg h, List.map_cons, List.mem_cons]
      rw [memD] at ih
      rw [ih]
      constructor
      · intro hm; exact Or.inr hm
      · intro hm
        rcases hm with hm | hm
        · exact absurd hm.symm h
        · exact hm

theorem diff_fold_char (dict1 dict2 : List (Str × Json)) (keys : List Str)
    (acc : List (Str × Json)) (key : Str) :
    lookupD
      (keys.foldl
        (fun acc key =>
          if pyEq (pyGet dict1 key) (pyGet dict2 key) then acc
          else insertD acc key (diffEntry dict1 dict2 key))
        acc) key =
      if key ∈ keys ∧ pyEq (pyGet dict1 key) (pyGet dict2 key) = false then
        some (diffEntry dict1 dict2 key)
      else lookupD acc key := by
  induction keys generalizing acc with
  | nil => simp
  | cons k0 rest ih =>
    simp only [List.foldl_cons]
    rw [ih]
    by_cases hpek : pyEq (pyGet dict1 key) (pyGet dict2 key) = false
    · by_cases hmem : key ∈ rest
      · simp [hmem, hpek]
      · by_cases hk : k0 = key
        · subst hk
          simp [hmem, hpek, lookupD_insertD]
        · by_cases hpe0 : pyEq (pyGet dict1 k0) (pyGet dict2 k0) = true
          · simp [hmem, hpek, hpe0, Ne.symm hk]
          · simp only [Bool.not_eq_true] at hpe0
            simp [hmem, hpek, hpe0, hk, Ne.symm hk, lookupD_insertD]
    · simp only [Bool.not_eq_false] at hpek
      by_cases hk : k0 = key
      · subst hk
        simp [hpek, lookupD_insertD]
      · by_cases hpe0 : pyEq (pyGet dict1 k0) (pyGet dict2 k0) = true
        · simp [hpek, hpe0]
        · simp only [Bool.not_eq_true] at hpe0
          simp [hpek, hpe0, hk, lookupD_insertD]

/-- C4 (amended): `diff_json` has an entry under a key exactly when
`dict1.get(key) != dict2.get(key)` (Python equality, absent keys reading as
null), and that entry is `{"old": dict1.get(key), "new": dict2.get(key)}`.
In particular a key present in only one side appears iff its present value is
not null. -/
theorem C4_diff_entries (dict1 dict2 : List (Str × Json)) (key : Str) :
    lookupD (diff_json dict1 dict2) key =
      if pyEq (pyGet dict1 key) (pyGet dict2 key) = true then none
      else some (diffEntry dict1 dict2 key) := by
  unfold diff_json
  rw [diff_fold_char]
  by_cases hpe : pyEq (pyGet dict1 key) (pyGet dict2 key) = true
  · simp [hpe, lookupD]
  · simp only [Bool.not_eq_true] at hpe
    have hmem : key ∈ unionKeys dict1 dict2 := by
      by_cases h1 : memD dict1 key
      · exact List.mem_append_left _ ((memD_iff_mem_keys _ _).mp h1)
      · by_cases h2 : memD dict2 key
        · refine List.mem_append_right _ (List.mem_filter.mpr ?_)
          exact ⟨(memD_iff_mem_keys _ _).mp h2, by simpa using h1⟩
        · exfalso
          have hn1 : lookupD dict1 key = none := by
            simp only [memD] at h1
            revert h1; cases lookupD dict1 key <;> simp
          have hn2 : lookupD dict2 key = none := by
            simp only [memD] at h2
            revert h2; cases lookupD dict2 key <;> simp
          rw [show pyGet dict1 key = Json.null by simp [pyGet, hn1],
              show pyGet dict2 key = Json.null by simp [pyGet, hn2]] at hpe
          simp [pyEq] at hpe
    simp [hmem, hpe]

/-- Concrete dict for the C4 counterexample. -/
def cw1 : List (Str × Json) := [("x".toList, .num 1)]

/-- C4 counterexample: the claim as stated — every key of
`keys(dict1) ∪ keys(dict2)` gets an entry in the diff — is false: for
`dict1 = dict2 = {"x": 1}` the key `"x"` lies in the union but
`diff_json` maps it to nothing (equal values are skipped). -/
theorem C4_counterexample :
    ¬ (∀ (dict1 dict2 : List (Str × Json)) (key : Str),
        key ∈ unionKeys dict1 dict2 →
        (lookupD (diff_json dict1 dict2) key).isSome = true) := by
  intro h
  have hmem : "x".toList ∈ unionKeys cw1 cw1 := by simp [unionKeys, cw1]
  have hsome := h cw1 cw1 "x".toList hmem
  have hnone : lookupD (diff_json cw1 cw1) "x".toList = none := by
    simp [diff_json, unionKeys, cw1, memD, lookupD, pyGet, pyEq]
  rw [hnone] at hsome
  simp at hsome

-- ---------------------------------------------------------------------------
-- Heap model for the mutate-in-place operations (C9).
-- ---------------------------------------------------------------------------

/-- A heap of Python dict objects; a reference is an index into the heap. -/
abbrev Heap := List (List (Str × Json))

/-- Dereference a dict object. -/
def readRef (h : Heap) (r : Nat) : List (Str × Json) := h.getD r []

/-- Overwrite a dict object in place. -/
def writeRef (h : Heap) (r : Nat) (d : List (Str × Json)) : Heap := h.set r d

/-- `JSONUtils.update_json_key`: `data[key] = value; return data` — mutates
the argument object and returns the same reference. -/
def update_json_key (h : Heap) (r : Nat) (key : Str) (value : Json) :
    Heap × Nat :=
  (writeRef h r (insertD (readRef h r) key value), r)

/-- `del data[key]` on an association list. -/
def removeD : List (Str × Json) → Str → List (Str × Json)
  | [], _ => []
  | (k, v) :: fs, key => if k = key then fs else (k, v) :: removeD fs key

/-- `JSONUtils.remove_json_key`: `if key in data: del data[key]; return
data` — mutates the argument object and returns the same reference.  (When
the key is absent `removeD` is the identity, matching the no-op branch.) -/
def remove_json_key (h : Heap) (r : Nat) (key : Str) : Heap × Nat :=
  (writeRef h r (removeD (readRef h r) key), r)

/-- `JSONUtils.merge_json` at the heap level: `result = dict1.copy()`
allocates a fresh dict object (here: at index `h.length`);
`result.update(dict2)` then mutates only that fresh object.  Neither input
object is ever written. -/
def merge_json_ref (h : Heap) (r1 r2 : Nat) : Heap × Nat :=
  (h ++ [merge_json (readRef h r1) (readRef h r2)], h.length)

/-- C9: `merge_json` leaves both input dicts unchanged — after the call both
referenced objects hold exactly their previous contents, and the returned
reference is a fresh object (distinct from both inputs) holding the merge
of the two input values. -/
theorem C9_merge_pure (h : Heap) (r1 r2 : Nat)
    (h1 : r1 < h.length) (h2 : r2 < h.length) :
    readRef (merge_json_ref h r1 r2).1 r1 = readRef h r1 ∧
    readRef (merge_json_ref h r1 r2).1 r2 = readRef h r2 ∧
    (merge_json_ref h r1 r2).2 ≠ r1 ∧ (merge_json_ref h r1 r2).2 ≠ r2 ∧
    readRef (merge_json_ref h r1 r2).1 (merge_json_ref h r1 r2).2 =
      merge_json (readRef h r1) (readRef h r2) := by
  refine ⟨?_, ?_, ?_, ?_, ?_⟩
  · simp only [merge_json_ref, readRef]
    exact List.getD_append _ _ _ _ h1
  · simp only [merge_json_ref, readRef]
    exact List.getD_append _ _ _ _ h2
  · simp only [merge_json_ref]
    omega
  · simp only [merge_json_ref]
    omega
  · simp only [merge_json_ref, readRef]
    rw [List.getD_append_right _ _ _ _ (le_refl _), Nat.sub_self]
    rfl

/-- Concrete heap for the witness of C9. -/
def hw : Heap := [[("a".toList, .num 1)], [("b".toList, .num 2)]]

/-- Witness for C9 at a concrete two-object heap. -/
theorem C9_merge_pure_witness :
    0 < hw.length ∧ 1 < hw.length ∧
    (readRef (merge_json_ref hw 0 1).1 0 = readRef hw 0 ∧
      readRef (merge_json_ref hw 0 1).1 1 = readRef hw 1 ∧
      (merge_json_ref hw 0 1).2 ≠ 0 ∧ (merge_json_ref hw 0 1).2 ≠ 1 ∧
      readRef (merge_json_ref hw 0 1).1 (merge_json_ref hw 0 1).2 =
        merge_json (readRef hw 0) (readRef hw 1)) :=
  ⟨by decide, by decide, C9_merge_pure hw 0 1 (by decide) (by decide)⟩

-- ---------------------------------------------------------------------------
-- Batch file I/O (threading lines 263-334, asyncio lines 13-97,
-- multiprocessing lines 6-93).  The filesystem-plus-codec collaborator is
-- abstract: reading a path either raises (missing file, permission,
-- malformed content) or yields the decoded document.
-- ---------------------------------------------------------------------------

/-- The outcome of `open` + `json.load` on one path: the decoded document, or
a raised exception. -/
abbrev FileSys := Str → Except Unit Json

/-- The per-item failure marker of the batch loads: the Python `None`
returned from the `except` branch.  A decoded JSON `null` is the very same
Python value. -/
def absenceMarker : Json := Json.null

/-- `JSONUtils._load_file_helper` (threading, lines 317-334): `try: return
path, load_json_from_file(path); except Exception: return path, None`. -/
def load_file_helper (fs : FileSys) (path : Str) : Str × Json :=
  (path,
    match fs path with
    | .ok d => d
    | .error _ => absenceMarker)

/-- `JSONUtilsAsync.load_json_from_file` (asyncio, lines 13-32): `try:
return json.loads(content); except Exception: return None`. -/
def async_load_json_from_file (fs : FileSys) (path : Str) : Json :=
  match fs path with
  | .ok d => d
  | .error _ => absenceMarker

/-- `load_json_file` (multiprocessing, lines 6-20): `try: return
json.load(f); except Exception: return None`. -/
def mp_load_json_file (fs : FileSys) (path : Str) : Json :=
  match fs path with
  | .ok d => d
  | .error _ => absenceMarker

/-- C2 counterexample: the claim — a successfully decoded document is never
reported as the absence marker — fails on a file whose content is `null`:
the helper returns the decoded `None`, which is exactly the marker, so a
consumer cannot tell that read apart from a failure. -/
theorem C2_counterexample :
    ¬ (∀ (fs : FileSys) (path : Str) (d : Json),
        fs path = .ok d → (load_file_helper fs path).2 ≠ absenceMarker) := by
  intro h
  exact h (fun _ => .ok Json.null) [] Json.null rfl rfl

/-- C2 (amended): for a path whose file decodes successfully to a document
other than null, every strategy's per-item loader returns that document and
it differs from the absence marker; a successfully decoded null document,
however, is returned as the marker itself, so only non-null documents are
distinguishable from failures. -/
theorem C2_absence_marker (fs : FileSys) (path : Str) (d : Json)
    (hok : fs path = .ok d) (hnn : d ≠ Json.null) :
    (load_file_helper fs path).2 = d ∧
    (load_file_helper fs path).2 ≠ absenceMarker ∧
    async_load_json_from_file fs path = d ∧
    async_load_json_from_file fs path ≠ absenceMarker ∧
    mp_load_json_file fs path = d ∧
    mp_load_json_file fs path ≠ absenceMarker ∧
    (∀ e, fs path = .ok e → e = Json.null →
      (load_file_helper fs path).2 = absenceMarker) := by
  have h1 : (load_file_helper fs path).2 = d := by simp [load_file_helper, hok]
  have h2 : async_load_json_from_file fs path = d := by
    simp [async_load_json_from_file, hok]
  have h3 : mp_load_json_file fs path = d := by simp [mp_load_json_file, hok]
  refine ⟨h1, ?_, h2, ?_, h3, ?_, ?_⟩
  · rw [h1]; exact hnn
  · rw [h2]; exact hnn
  · rw [h3]; exact hnn
  · intro e he hnull
    rw [hok] at he
    injection he with h
    exact absurd (h.trans hnull) hnn

/-- Concrete single-file system for the witness of C2. -/
def fsw : FileSys := fun _ => .ok (Json.num 7)

/-- Witness for C2 at a file decoding to the document `7`. -/
theorem C2_absence_marker_witness :
    fsw "p".toList = .ok (Json.num 7) ∧ Json.num 7 ≠ Json.null ∧
    ((load_file_helper fsw "p".toList).2 = Json.num 7 ∧
      (load_file_helper fsw "p".toList).2 ≠ absenceMarker ∧
      async_load_json_from_file fsw "p".toList = Json.num 7 ∧
      async_load_json_from_file fsw "p".toList ≠ absenceMarker ∧
      mp_load_json_file fsw "p".toList = Json.num 7 ∧
      mp_load_json_file fsw "p".toList ≠ absenceMarker ∧
      (∀ e, fsw "p".toList = .ok e → e = Json.null →
        (load_file_helper fsw "p".toList).2 = absenceMarker)) :=
  ⟨rfl, fun h => Json.noConfusion h,
    C2_absence_marker fsw "p".toList (Json.num 7) rfl
      (fun h => Json.noConfusion h)⟩

-- ---------------------------------------------------------------------------
-- Batch loads (C3).
-- ---------------------------------------------------------------------------

/-- Re-keying the collected futures by path: `results[path] = data` per
completed future, in completion order. -/
def collectLoads (fs : FileSys) (order : List Str) : List (Str × Json) :=
  order.foldl (fun results p => insertD results p (load_file_helper fs p).2) []

/-- `JSONUtils.load_multiple_json_files` (threading, lines 263-286): one
future per input path; `as_completed` yields them in an arbitrary completion
order (a permutation of the input paths); the result dict maps each future's
path to its data. -/
def load_multiple_json_files (fs : FileSys) (completed : List Str) :
    List (Str × Json) :=
  collectLoads fs completed

/-- `JSONUtilsAsync.load_multiple_json_files` (asyncio, lines 61-76):
`gather` preserves input order and the dict zips paths with results. -/
def async_load_multiple_json_files (fs : FileSys) (filePaths : List Str) :
    List (Str × Json) :=
  (filePaths.map (fun p => (p, async_load_json_from_file fs p))).foldl
    (fun m kv => insertD m kv.1 kv.2) []

/-- `JSONUtilsProcess.load_multiple_json_files` (multiprocessing, lines
52-69): `pool.map` preserves input order and the dict zips paths with
results. -/
def mp_load_multiple_json_files (fs : FileSys) (filePaths : List Str) :
    List (Str × Json) :=
  (filePaths.map (fun p => (p, mp_load_json_file fs p))).foldl
    (fun m kv => insertD m kv.1 kv.2) []

theorem memD_append (a b : List (Str × Json)) (k : Str) :
    memD (a ++ b) k = (memD a k || memD b k) := by
  induction a with
  | nil => simp [memD, lookupD]
  | cons kv fs ih =>
    obtain ⟨k0, v⟩ := kv
    by_cases h : k0 = k
    · simp [memD, lookupD, h]
    · simpa [memD, lookupD, h] using ih

theorem insertD_of_not_memD (d : List (Str × Json)) (k : Str) (v : Json)
    (h : memD d k = false) : insertD d k v = d ++ [(k, v)] := by
  induction d with
  | nil => simp [insertD]
  | cons kv fs ih =>
    obtain ⟨k0, w⟩ := kv
    by_cases h0 : k0 = k
    · simp [memD, lookupD, h0] at h
    · simp only [memD, lookupD, if_neg h0] at h
      simp [insertD, if_neg h0, ih h]

/-- Folding dict insertion over entries with pairwise-distinct keys, starting
from a dict containing none of them, appends them in order. -/
theorem foldl_insertD_eq_append (entries : List (Str × Json))
    (acc : List (Str × Json))
    (hfresh : ∀ kv ∈ entries, memD acc kv.1 = false)
    (hnd : (entries.map Prod.fst).Nodup) :
    entries.foldl (fun m kv => insertD m kv.1 kv.2) acc = acc ++ entries := by
  induction entries generalizing acc with
  | nil => simp
  | cons kv rest ih =>
    obtain ⟨k, v⟩ := kv
    simp only [List.foldl_cons]
    rw [insertD_of_not_memD _ _ _ (hfresh (k, v) (List.mem_cons_self _ _))]
    rw [ih (acc ++ [(k, v)])]
    · simp
    · intro kv2 hkv2
      rw [memD_append]
      have h1 : memD acc kv2.1 = false := hfresh kv2 (List.mem_cons_of_mem _ hkv2)
      have h2 : memD [(k, v)] kv2.1 = false := by
        simp only [List.map_cons, List.nodup_cons] at hnd
        have hne : kv2.1 ≠ k := by
          intro hc
          exact hnd.1 (hc ▸ List.mem_map_of_mem Prod.fst hkv2)
        simp [memD, lookupD, Ne.symm hne]
      rw [h1, h2]
      rfl
    · simp only [List.map_cons, List.nodup_cons] at hnd
      exact hnd.2

theorem lookupD_map_self (order : List Str) (f : Str → Json) (p : Str)
    (hnd : order.Nodup) (hmem : p ∈ order) :
    lookupD (order.map (fun q => (q, f q))) p = some (f p) := by
  induction order with
  | nil => cases hmem
  | cons q rest ih =>
    simp only [List.nodup_cons] at hnd
    rcases List.mem_cons.mp hmem with h | h
    · subst h
      simp [lookupD]
    · by_cases hq : q = p
      · exact absurd (hq ▸ h) hnd.1
      · simp only [List.map_cons, lookupD, if_neg hq]
        exact ih hnd.2 h

/-- Whether reading this path raises. -/
def isFailB (fs : FileSys) (p : Str) : Bool :=
  match fs p with
  | .ok _ => false
  | .error _ => true

/-- Whether a Python value is `None` (the absence marker). -/
def isNullB : Json → Bool
  | .null => true
  | _ => false

theorem map_fst_pairing (order : List Str) (g : Str → Json) :
    (order.map (fun p => (p, g p))).map Prod.fst = order := by
  induction order with
  | nil => rfl
  | cons a l ih => simp [ih]

theorem collectLoads_eq_map (fs : FileSys) (order : List Str)
    (hnd : order.Nodup) :
    collectLoads fs order = order.map (fun p => (p, (load_file_helper fs p).2)) := by
  have h := foldl_insertD_eq_append
    (order.map (fun p => (p, (load_file_helper fs p).2))) []
    (by intro kv _; rfl)
    (by rw [map_fst_pairing]; exact hnd)
  rw [collectLoads]
  rw [List.foldl_map] at h
  simpa [load_file_helper] using h

/-- C3 (amended): for pairwise-distinct input paths none of which decodes
successfully to null, every strategy's batch load returns a map with exactly
one entry per input path, of which exactly M — the number of failing paths —
hold the absence marker, and every successfully decoded path maps to its
document.  (For the threading strategy this holds for every completion
order.) -/
theorem C3_batch_load (fs : FileSys) (filePaths completed : List Str)
    (hnd : filePaths.Nodup) (hperm : completed.Perm filePaths)
    (hnonull : ∀ p ∈ filePaths, fs p ≠ .ok Json.null) :
    ((load_multiple_json_files fs completed).length = filePaths.length ∧
      (load_multiple_json_files fs completed).countP (fun kv => isNullB kv.2) =
        filePaths.countP (fun p => isFailB fs p) ∧
      (∀ p d, p ∈ filePaths → fs p = .ok d →
        lookupD (load_multiple_json_files fs completed) p = some d)) ∧
    ((async_load_multiple_json_files fs filePaths).length = filePaths.length ∧
      (async_load_multiple_json_files fs filePaths).countP (fun kv => isNullB kv.2) =
        filePaths.countP (fun p => isFailB fs p) ∧
      (∀ p d, p ∈ filePaths → fs p = .ok d →
        lookupD (async_load_multiple_json_files fs filePaths) p = some d)) ∧
    ((mp_load_multiple_json_files fs filePaths).length = filePaths.length ∧
      (mp_load_multiple_json_files fs filePaths).countP (fun kv => isNullB kv.2) =
        filePaths.countP (fun p => isFailB fs p) ∧
      (∀ p d, p ∈ filePaths → fs p = .ok d →
        lookupD (mp_load_multiple_json_files fs filePaths) p = some d)) := by
  have hcnd : completed.Nodup := hperm.nodup_iff.mpr hnd
  have hmarker : ∀ p ∈ filePaths,
      isNullB (load_file_helper fs p).2 = isFailB fs p := by
    intro p hp
    rcases hfs : fs p with e | d
    · simp [load_file_helper, isFailB, hfs, absenceMarker, isNullB]
    · have hdn : d ≠ Json.null := by
        intro hc
        exact hnonull p hp (hc ▸ hfs)
      cases d <;> simp [load_file_helper, isFailB, hfs, isNullB] at hdn ⊢
  have hthread : load_multiple_json_files fs completed =
      completed.map (fun p => (p, (load_file_helper fs p).2)) :=
    collectLoads_eq_map fs completed hcnd
  have hasync : async_load_multiple_json_files fs filePaths =
      filePaths.map (fun p => (p, async_load_json_from_file fs p)) := by
    rw [async_load_multiple_json_files]
    rw [foldl_insertD_eq_append _ [] (by intro kv _; rfl)
      (by rw [map_fst_pairing]; exact hnd)]
    simp
  have hmp : mp_load_multiple_json_files fs filePaths =
      filePaths.map (fun p => (p, mp_load_json_file fs p)) := by
    rw [mp_load_multiple_json_files]
    rw [foldl_insertD_eq_append _ [] (by intro kv _; rfl)
      (by rw [map_fst_pairing]; exact hnd)]
    simp
  have hsame : ∀ p, async_load_json_from_file fs p = (load_file_helper fs p).2 := by
    intro p; rfl
  have hsame2 : ∀ p, mp_load_json_file fs p = (load_file_helper fs p).2 := by
    intro p; rfl
  refine ⟨⟨?_, ?_, ?_⟩, ⟨?_, ?_, ?_⟩, ⟨?_, ?_, ?_⟩⟩
  · rw [hthread]
    simpa using hperm.length_eq
  · rw [hthread, List.countP_map]
    exact hperm.countP_congr (fun p hp => by
      simpa using hmarker p (hperm.subset hp))
  · intro p d hp hd
    rw [hthread]
    rw [lookupD_map_self _ _ _ hcnd (hperm.mem_iff.mpr hp)]
    simp [load_file_helper, hd]
  · rw [hasync]; simp
  · rw [hasync, List.countP_map]
    exact List.countP_congr (fun p hp => by
      simpa [hsame] using hmarker p hp)
  · intro p d hp hd
    rw [hasync, lookupD_map_self _ _ _ hnd hp]
    simp [async_load_json_from_file, hd]
  · rw [hmp]; simp
  · rw [hmp, List.countP_map]
    exact List.countP_congr (fun p hp => by
      simpa [hsame2] using hmarker p hp)
  · intro p d hp hd
    rw [hmp, lookupD_map_self _ _ _ hnd hp]
    simp [mp_load_json_file, hd]

/-- C3 counterexample: with a duplicated input path the result dict has
fewer entries than input paths (the dict re-keys by path), so the claim as
stated — exactly N entries for N input paths — fails. -/
theorem C3_counterexample :
    ¬ (∀ (fs : FileSys) (filePaths completed : List Str),
        completed.Perm filePaths →
        (load_multiple_json_files fs completed).length = filePaths.length) := by
  intro h
  have := h (fun _ => .ok (Json.num 1)) ["a".toList, "a".toList]
    ["a".toList, "a".toList] (List.Perm.refl _)
  simp [load_multiple_json_files, collectLoads, load_file_helper, insertD] at this

/-- Concrete two-path filesystem for the witness of C3: `good` decodes to
`1`, `bad` raises. -/
def fsw3 : FileSys := fun p => if p = "good".toList then .ok (Json.num 1) else .error ()

/-- Witness for C3 at paths `[good, bad]` with completion order
`[bad, good]`. -/
theorem C3_batch_load_witness :
    ["good".toList, "bad".toList].Nodup ∧
    ["bad".toList, "good".toList].Perm ["good".toList, "bad".toList] ∧
    (∀ p ∈ ["good".toList, "bad".toList], fsw3 p ≠ .ok Json.null) ∧
    (((load_multiple_json_files fsw3 ["bad".toList, "good".toList]).length =
        ["good".toList, "bad".toList].length ∧
      (load_multiple_json_files fsw3 ["bad".toList, "good".toList]).countP
          (fun kv => isNullB kv.2) =
        ["good".toList, "bad".toList].countP (fun p => isFailB fsw3 p) ∧
      (∀ p d, p ∈ ["good".toList, "bad".toList] → fsw3 p = .ok d →
        lookupD (load_multiple_json_files fsw3 ["bad".toList, "good".toList]) p =
          some d)) ∧
    ((async_load_multiple_json_files fsw3 ["good".toList, "bad".toList]).length =
        ["good".toList, "bad".toList].length ∧
      (async_load_multiple_json_files fsw3 ["good".toList, "bad".toList]).countP
          (fun kv => isNullB kv.2) =
        ["good".toList, "bad".toList].countP (fun p => isFailB fsw3 p) ∧
      (∀ p d, p ∈ ["good".toList, "bad".toList] → fsw3 p = .ok d →
        lookupD (async_load_multiple_json_files fsw3 ["good".toList, "bad".toList]) p =
          some d)) ∧
    ((mp_load_multiple_json_files fsw3 ["good".toList, "bad".toList]).length =
        ["good".toList, "bad".toList].length ∧
      (mp_load_multiple_json_files fsw3 ["good".toList, "bad".toList]).countP
          (fun kv => isNullB kv.2) =
        ["good".toList, "bad".toList].countP (fun p => isFailB fsw3 p) ∧
      (∀ p d, p ∈ ["good".toList, "bad".toList] → fsw3 p = .ok d →
        lookupD (mp_load_multiple_json_files fsw3 ["good".toList, "bad".toList]) p =
          some d))) :=
  ⟨by decide,
   List.Perm.swap _ _ _,
   by
     intro p hp
     fin_cases hp <;> (intro hc; simp [fsw3] at hc),
   C3_batch_load fsw3 ["good".toList, "bad".toList] ["bad".toList, "good".toList]
     (by decide) (List.Perm.swap _ _ _)
     (by intro p hp; fin_cases hp <;> (intro hc; simp [fsw3] at hc))⟩

-- ---------------------------------------------------------------------------
-- Batch saves (C6, C7).
-- ---------------------------------------------------------------------------

/-- Abstract outcome of encoding and writing one (path, document) pair:
`true` when `json.dump` and the file write both succeed.  A Python `open`
of the empty path always raises (`FileNotFoundError`), which is the
hypothesis `∀ d, ws [] d = false` carried by the theorems below. -/
abbrev WriteSys := Str → Json → Bool

/-- `JSONUtils._save_file_helper` (threading, lines 336-353): `try: save;
return path; except Exception: return None`. -/
def save_file_helper (ws : WriteSys) (path : Str) (data : Json) : Option Str :=
  if ws path data then some path else none

/-- `JSONUtilsAsync.save_json_to_file` (asyncio, lines 34-59): `try: dump +
write; return file_path; except Exception: return None`. -/
def async_save_json_to_file (ws : WriteSys) (path : Str) (data : Json) :
    Option Str :=
  if ws path data then some path else none

/-- `save_json_file` (multiprocessing, lines 23-44): `try: dump; return
path; except Exception: return None`. -/
def mp_save_json_file (ws : WriteSys) (path : Str) (data : Json) :
    Option Str :=
  if ws path data then some path else none

/-- One iteration of the `as_completed` drain loop of the threading
`save_multiple_json_files`: `result = future.result(); if result:
success_paths.append(result)` — appended under Python truthiness, so `None`
and the empty string are skipped. -/
def saveStep (ws : WriteSys) (successPaths : List Str) (pd : Str × Json) :
    List Str :=
  match save_file_helper ws pd.1 pd.2 with
  | some r => if r.isEmpty then successPaths else successPaths ++ [r]
  | none => successPaths

/-- `JSONUtils.save_multiple_json_files` (threading, lines 288-315): futures
are drained `as_completed`, i.e. in an arbitrary completion order
(`completedPairs`, a permutation of the input pairs). -/
def save_multiple_json_files (ws : WriteSys)
    (completedPairs : List (Str × Json)) : List Str :=
  completedPairs.foldl (saveStep ws) []

/-- `JSONUtilsAsync.save_multiple_json_files` (asyncio, lines 78-97):
`gather` preserves input order; `[r for r in results if r is not None]`. -/
def async_save_multiple_json_files (ws : WriteSys)
    (pairs : List (Str × Json)) : List Str :=
  (pairs.map (fun pd => async_save_json_to_file ws pd.1 pd.2)).filterMap id

/-- `JSONUtilsProcess.save_multiple_json_files` (multiprocessing, lines
71-93): `pool.map` preserves input order; `[r for r in results if r is not
None]`. -/
def mp_save_multiple_json_files (ws : WriteSys)
    (pairs : List (Str × Json)) : List Str :=
  (pairs.map (fun pd => mp_save_json_file ws pd.1 pd.2)).filterMap id

theorem saveStep_pos (ws : WriteSys) (acc : List Str) (p : Str) (d : Json)
    (hw : ws p d = true) (hpne : p.isEmpty = false) :
    saveStep ws acc (p, d) = acc ++ [p] := by
  rw [saveStep, save_file_helper]
  simp [hw, hpne]

theorem saveStep_neg (ws : WriteSys) (acc : List Str) (p : Str) (d : Json)
    (hw : ws p d = false) : saveStep ws acc (p, d) = acc := by
  rw [saveStep, save_file_helper]
  simp [hw]

theorem save_fold_eq (ws : WriteSys) (hempty : ∀ d, ws [] d = false)
    (cp : List (Str × Json)) (acc : List Str) :
    cp.foldl (saveStep ws) acc =
      acc ++ (cp.filter (fun pd => ws pd.1 pd.2)).map Prod.fst := by
  induction cp generalizing acc with
  | nil => simp
  | cons pd rest ih =>
    obtain ⟨p, d⟩ := pd
    rw [List.foldl_cons]
    by_cases hw : ws p d = true
    · have hpne : p.isEmpty = false := by
        cases p with
        | nil => rw [hempty d] at hw; cases hw
        | cons c cs => rfl
      rw [saveStep_pos ws acc p d hw hpne, ih]
      rw [List.filter_cons]
      simp [hw]
    · have hw2 : ws p d = false := by
        cases hwc : ws p d
        · rfl
        · exact absurd hwc hw
      rw [saveStep_neg ws acc p d hw2, ih]
      rw [List.filter_cons]
      simp [hw2]

theorem filterMap_save_helpers (ws : WriteSys) (pairs : List (Str × Json)) :
    (pairs.map (fun pd => save_file_helper ws pd.1 pd.2)).filterMap id =
      (pairs.filter (fun pd => ws pd.1 pd.2)).map Prod.fst := by
  induction pairs with
  | nil => rfl
  | cons pd rest ih =>
    obtain ⟨p, d⟩ := pd
    have hmap : (((p, d) :: rest).map (fun pd => save_file_helper ws pd.1 pd.2)) =
        save_file_helper ws p d ::
          rest.map (fun pd => save_file_helper ws pd.1 pd.2) := rfl
    rw [hmap, List.filter_cons]
    by_cases hw : ws p d = true
    · have hh : save_file_helper ws p d = some p := by
        simp [save_file_helper, hw]
      rw [hh]
      have hred : List.filterMap id
          (some p :: rest.map (fun pd => save_file_helper ws pd.1 pd.2)) =
          p :: List.filterMap id
            (rest.map (fun pd => save_file_helper ws pd.1 pd.2)) := rfl
      rw [hred, ih]
      simp [hw]
    · have hw2 : ws p d = false := by
        cases hwc : ws p d
        · rfl
        · exact absurd hwc hw
      have hh : save_file_helper ws p d = none := by
        simp [save_file_helper, hw2]
      rw [hh]
      have hred : List.filterMap id
          ((none : Option Str) :: rest.map (fun pd => save_file_helper ws pd.1 pd.2)) =
          List.filterMap id
            (rest.map (fun pd => save_file_helper ws pd.1 pd.2)) := rfl
      rw [hred, ih]
      simp [hw2]

/-- C6: a batch save of N pairs of which exactly one write fails returns,
in every strategy, a success list of length N-1 whose contents are exactly
the successfully written paths (as a multiset; the list is never raised
past the item boundary — each strategy returns a plain list).  For the
threading strategy this holds in every completion order. -/
theorem C6_batch_save (ws : WriteSys) (pairs completedPairs : List (Str × Json))
    (hempty : ∀ d, ws [] d = false)
    (hperm : completedPairs.Perm pairs)
    (hone : pairs.countP (fun pd => !(ws pd.1 pd.2)) = 1) :
    ((save_multiple_json_files ws completedPairs).length = pairs.length - 1 ∧
      (save_multiple_json_files ws completedPairs).Perm
        ((pairs.filter (fun pd => ws pd.1 pd.2)).map Prod.fst)) ∧
    ((async_save_multiple_json_files ws pairs).length = pairs.length - 1 ∧
      async_save_multiple_json_files ws pairs =
        (pairs.filter (fun pd => ws pd.1 pd.2)).map Prod.fst) ∧
    ((mp_save_multiple_json_files ws pairs).length = pairs.length - 1 ∧
      mp_save_multiple_json_files ws pairs =
        (pairs.filter (fun pd => ws pd.1 pd.2)).map Prod.fst) := by
  have hlen : ((pairs.filter (fun pd => ws pd.1 pd.2)).map Prod.fst).length =
      pairs.length - 1 := by
    rw [List.length_map, ← List.countP_eq_length_filter]
    have htot := List.length_eq_countP_add_countP (fun pd => ws pd.1 pd.2) pairs
    have hnot : pairs.countP (fun pd => !(ws pd.1 pd.2)) =
        pairs.countP (fun pd => ¬ (ws pd.1 pd.2 = true)) := by
      apply List.countP_congr
      intro pd _
      cases ws pd.1 pd.2 <;> simp
    rw [hnot] at hone
    omega
  have hthread : save_multiple_json_files ws completedPairs =
      (completedPairs.filter (fun pd => ws pd.1 pd.2)).map Prod.fst :=
    save_fold_eq ws hempty completedPairs []
  have hasync : async_save_multiple_json_files ws pairs =
      (pairs.filter (fun pd => ws pd.1 pd.2)).map Prod.fst :=
    filterMap_save_helpers ws pairs
  have hmp : mp_save_multiple_json_files ws pairs =
      (pairs.filter (fun pd => ws pd.1 pd.2)).map Prod.fst :=
    filterMap_save_helpers ws pairs
  have hpermfilter : ((completedPairs.filter (fun pd => ws pd.1 pd.2)).map
      Prod.fst).Perm ((pairs.filter (fun pd => ws pd.1 pd.2)).map Prod.fst) :=
    (hperm.filter _).map _
  refine ⟨⟨?_, ?_⟩, ⟨?_, ?_⟩, ⟨?_, ?_⟩⟩
  · rw [hthread]
    rw [hpermfilter.length_eq]
    exact hlen
  · rw [hthread]
    exact hpermfilter
  · rw [hasync]
    exact hlen
  · exact hasync
  · rw [hmp]
    exact hlen
  · exact hmp

/-- Concrete write system for the witnesses: only the path `bad` (and the
empty path) fails. -/
def wsw : WriteSys := fun p _ => !(p.isEmpty) && !(p = "bad".toList)

/-- The concrete pair list of the C6 witness: three pairs, one of which
(`bad`) fails to write. -/
def pairsw : List (Str × Json) :=
  [("x".toList, Json.num 1), ("bad".toList, Json.num 2),
    ("y".toList, Json.num 3)]

/-- Witness for C6 at pairs `[(x, 1), (bad, 2), (y, 3)]` (completion order
taken equal to input order). -/
theorem C6_batch_save_witness :
    (∀ d, wsw [] d = false) ∧
    pairsw.Perm pairsw ∧
    pairsw.countP (fun pd => !(wsw pd.1 pd.2)) = 1 ∧
    (((save_multiple_json_files wsw pairsw).length = pairsw.length - 1 ∧
      (save_multiple_json_files wsw pairsw).Perm
        ((pairsw.filter (fun pd => wsw pd.1 pd.2)).map Prod.fst)) ∧
    ((async_save_multiple_json_files wsw pairsw).length = pairsw.length - 1 ∧
      async_save_multiple_json_files wsw pairsw =
        (pairsw.filter (fun pd => wsw pd.1 pd.2)).map Prod.fst) ∧
    ((mp_save_multiple_json_files wsw pairsw).length = pairsw.length - 1 ∧
      mp_save_multiple_json_files wsw pairsw =
        (pairsw.filter (fun pd => wsw pd.1 pd.2)).map Prod.fst)) :=
  ⟨fun _ => rfl, List.Perm.refl _, by decide,
   C6_batch_save wsw pairsw pairsw (fun _ => rfl) (List.Perm.refl _)
     (by decide)⟩

/-- C7 (amended): the write success list carries input order for the
suspension strategy AND for the process-pool strategy (`pool.map` returns
results in input order), and completion order for the thread-pool strategy
(`as_completed`).  Each list is the order-respecting subsequence of paths
whose writes succeeded. -/
theorem C7_save_order (ws : WriteSys) (pairs completedPairs : List (Str × Json))
    (hempty : ∀ d, ws [] d = false) :
    async_save_multiple_json_files ws pairs =
      (pairs.filter (fun pd => ws pd.1 pd.2)).map Prod.fst ∧
    mp_save_multiple_json_files ws pairs =
      (pairs.filter (fun pd => ws pd.1 pd.2)).map Prod.fst ∧
    save_multiple_json_files ws completedPairs =
      (completedPairs.filter (fun pd => ws pd.1 pd.2)).map Prod.fst :=
  ⟨filterMap_save_helpers ws pairs, filterMap_save_helpers ws pairs,
    save_fold_eq ws hempty completedPairs []⟩

/-- Witness for C7 at the concrete write system and pairs of C6. -/
theorem C7_save_order_witness :
    (∀ d, wsw [] d = false) ∧
    (async_save_multiple_json_files wsw pairsw =
        (pairsw.filter (fun pd => wsw pd.1 pd.2)).map Prod.fst ∧
      mp_save_multiple_json_files wsw pairsw =
        (pairsw.filter (fun pd => wsw pd.1 pd.2)).map Prod.fst ∧
      save_multiple_json_files wsw pairsw =
        (pairsw.filter (fun pd => wsw pd.1 pd.2)).map Prod.fst) :=
  ⟨fun _ => rfl, C7_save_order wsw pairsw pairsw (fun _ => rfl)⟩

/-- Write system under which every nonempty path succeeds. -/
def wsAll : WriteSys := fun p _ => !(p.isEmpty)

/-- C7 counterexample: the claim says the process-pool success list is in
completion order, not input order; but `pool.map` returns results in input
order, so the success list is always the input-order subsequence — here the
input order `[b, a]` is returned verbatim and the opposite order can never
be produced. -/
theorem C7_counterexample :
    mp_save_multiple_json_files wsAll
        [("b".toList, Json.num 1), ("a".toList, Json.num 2)] =
      ["b".toList, "a".toList] ∧
    mp_save_multiple_json_files wsAll
        [("b".toList, Json.num 1), ("a".toList, Json.num 2)] ≠
      ["a".toList, "b".toList] := by
  constructor
  · rfl
  · decide

-- ---------------------------------------------------------------------------
-- C10: search_nested_key traverses matched values.
-- ---------------------------------------------------------------------------

mutual

/-- All values lying under a mapping key equal to `searchKey` anywhere in a
document, in natural left-to-right order — including matches nested inside
matched values, since a matched value is traversed as well. -/
def occs (searchKey : Str) : Json → List Json
  | .obj fs => occsO searchKey fs
  | .arr xs => occsL searchKey xs
  | _ => []

/-- `occs` over the fields of a mapping. -/
def occsO (searchKey : Str) : List (Str × Json) → List Json
  | [] => []
  | (k, v) :: fs =>
    (if k = searchKey then [v] else []) ++ occs searchKey v ++ occsO searchKey fs

/-- `occs` over the elements of a sequence. -/
def occsL (searchKey : Str) : List Json → List Json
  | [] => []
  | x :: xs => occs searchKey x ++ occsL searchKey xs

end

theorem occsL_eq_flatMap (searchKey : Str) (xs : List Json) :
    occsL searchKey xs = xs.flatMap (occs searchKey) := by
  induction xs with
  | nil => rfl
  | cons x xs ih => simp [occsL, ih]

/-- Interleaving lemma: collecting all of one mapping level's matches first
and then the values' own occurrences is a permutation of the natural
interleaved order. -/
theorem matches_flatMap_perm (searchKey : Str) (fs : List (Str × Json)) :
    ((fs.filterMap (fun kv => if kv.1 = searchKey then some kv.2 else none)) ++
        (fs.map Prod.snd).flatMap (occs searchKey)).Perm
      (occsO searchKey fs) := by
  induction fs with
  | nil => simp [occsO]
  | cons kv rest ih =>
    obtain ⟨k, v⟩ := kv
    have hstep : ((((k, v) :: rest).filterMap
          (fun kv => if kv.1 = searchKey then some kv.2 else none)) ++
        (((k, v) :: rest).map Prod.snd).flatMap (occs searchKey)) =
        (if k = searchKey then [v] else []) ++
          (rest.filterMap (fun kv => if kv.1 = searchKey then some kv.2 else none) ++
            (occs searchKey v ++
              (rest.map Prod.snd).flatMap (occs searchKey))) := by
      by_cases hk : k = searchKey <;> simp [List.filterMap_cons, hk]
    have hocc : occsO searchKey ((k, v) :: rest) =
        (if k = searchKey then [v] else []) ++
          (occs searchKey v ++ occsO searchKey rest) := by
      rw [occsO, List.append_assoc]
    rw [hstep, hocc]
    refine List.Perm.append_left _ ?_
    have h1 : (rest.filterMap (fun kv => if kv.1 = searchKey then some kv.2 else none) ++
        (occs searchKey v ++ (rest.map Prod.snd).flatMap (occs searchKey))).Perm
        (occs searchKey v ++
          (rest.filterMap (fun kv => if kv.1 = searchKey then some kv.2 else none) ++
            (rest.map Prod.snd).flatMap (occs searchKey))) := by
      rw [← List.append_assoc, ← List.append_assoc]
      exact List.perm_append_comm.append_right _
    exact h1.trans (ih.append_left _)

theorem perm_shuffle {α : Type} (found M A B S C : List α)
    (h1 : List.Perm A B) (h2 : List.Perm (M ++ B) C) :
    List.Perm (found ++ (M ++ (A ++ S))) (found ++ (C ++ S)) := by
  refine List.Perm.append_left found ?_
  have e1 : M ++ (A ++ S) = (M ++ A) ++ S := by rw [List.append_assoc]
  rw [e1]
  have p1 : List.Perm ((M ++ A) ++ S) ((M ++ B) ++ S) :=
    (h1.append_left M).append_right S
  exact p1.trans (h2.append_right S)

/-- The stack loop of `search_nested_key` computes, up to permutation, the
accumulated results so far plus all occurrences below the documents still on
the stack. -/
theorem searchLoop_perm (searchKey : Str) (stack found : List Json) :
    (searchLoop searchKey stack found).Perm
      (found ++ stack.flatMap (occs searchKey)) := by
  induction stack, found using searchLoop.induct searchKey with
  | case1 found =>
    simp [searchLoop]
  | case2 fs stack found ih =>
    rw [searchLoop]
    refine ih.trans ?_
    simp only [List.flatMap_append, List.flatMap_cons, List.append_assoc, occs]
    exact perm_shuffle found _ _ _ _ _
      ((List.reverse_perm _).flatMap_right _)
      (matches_flatMap_perm searchKey fs)
  | case3 xs stack found ih =>
    rw [searchLoop]
    refine ih.trans ?_
    simp only [List.flatMap_append, List.flatMap_cons, List.append_assoc, occs,
      occsL_eq_flatMap]
    exact List.Perm.append_left found
      (((List.reverse_perm _).flatMap_right _).append_right _)
  | case4 j stack found h1 h2 ih =>
    rw [searchLoop]
    · refine ih.trans ?_
      have hocc : occs searchKey j = [] := by
        cases j with
        | obj fs => exact absurd rfl (h1 fs)
        | arr xs => exact absurd rfl (h2 xs)
        | null => rfl
        | bool b => rfl
        | num n => rfl
        | str s => rfl
      simp [hocc]
    · exact h1
    · exact h2

/-- The document of the C10 example: `{"target": {"target": 1}}`. -/
def exDoc10 : Json :=
  .obj [("target".toList, .obj [("target".toList, .num 1)])]

/-- C10: a value under a matching key is both reported and itself traversed
— the search result is, as a multiset, exactly the list of all occurrences
(`occs`), which by construction includes matches nested inside matched
values; in particular searching `"target"` in `{"target": {"target": 1}}`
returns both the inner mapping and `1`. -/
theorem C10_search_into_matches :
    (∀ (data : Json) (searchKey : Str),
      (search_nested_key data searchKey).Perm (occs searchKey data)) ∧
    (search_nested_key exDoc10 "target".toList).Perm
      [Json.obj [("target".toList, Json.num 1)], Json.num 1] := by
  have hmain : ∀ (data : Json) (searchKey : Str),
      (search_nested_key data searchKey).Perm (occs searchKey data) := by
    intro data searchKey
    have h := searchLoop_perm searchKey [data] []
    simpa [search_nested_key] using h
  refine ⟨hmain, ?_⟩
  have h := hmain exDoc10 "target".toList
  have hocc : occs "target".toList exDoc10 =
      [Json.obj [("target".toList, Json.num 1)], Json.num 1] := by
    simp [exDoc10, occs, occsO]
  rw [hocc] at h
  exact h

-- ---------------------------------------------------------------------------
-- C1: flatten_json / unflatten_json (threading, lines 167-223).
-- Compound-key strings are built with `f"{parent}{sep}{k}"` under Python
-- string truthiness and taken apart with `compound_key.split(sep)`; both are
-- modelled on character lists for a single-character separator.
-- ---------------------------------------------------------------------------

/-- `f"{parent}{sep}{k}" if parent else k`: the empty parent disappears
because Python's `if parent` is string truthiness. -/
def joinKey (sep : Char) (parent k : Str) : Str :=
  if parent = [] then k else parent ++ sep :: k

/-- `str(i)` for a sequence index. -/
def natStr (i : Nat) : Str := Nat.toDigits 10 i

/-- Python `compound_key.split(sep)` for a one-character separator: always a
nonempty list of separator-free segments. -/
def splitOnSep (sep : Char) : Str → List Str
  | [] => [[]]
  | c :: rest =>
    if c = sep then [] :: splitOnSep sep rest
    else
      match splitOnSep sep rest with
      | s :: ss => (c :: s) :: ss
      | [] => [[c]]

/-- `sep.join(segments)`. -/
def joinSegs (sep : Char) : List Str → Str
  | [] => []
  | [s] => s
  | s :: rest => s ++ sep :: joinSegs sep rest

theorem joinSegs_single (sep : Char) (s : Str) : joinSegs sep [s] = s := rfl

theorem joinSegs_cons2 (sep : Char) (s t : Str) (rest : List Str) :
    joinSegs sep (s :: t :: rest) = s ++ sep :: joinSegs sep (t :: rest) := rfl

theorem splitOnSep_ne_nil (sep : Char) (s : Str) : splitOnSep sep s ≠ [] := by
  cases s with
  | nil => simp [splitOnSep]
  | cons c rest =>
    rw [splitOnSep]
    by_cases h : c = sep
    · simp [h]
    · simp only [if_neg h]
      cases hs : splitOnSep sep rest <;> simp

/-- Splitting is a left inverse of joining: `sep.join(k.split(sep)) == k`. -/
theorem joinSegs_splitOnSep (sep : Char) (s : Str) :
    joinSegs sep (splitOnSep sep s) = s := by
  induction s with
  | nil => rfl
  | cons c rest ih =>
    rw [splitOnSep]
    by_cases h : c = sep
    · rw [if_pos h]
      cases hs : splitOnSep sep rest with
      | nil => exact absurd hs (splitOnSep_ne_nil sep rest)
      | cons s0 ss =>
        rw [hs] at ih
        rw [joinSegs_cons2, List.nil_append, ih, h]
    · rw [if_neg h]
      cases hs : splitOnSep sep rest with
      | nil => exact absurd hs (splitOnSep_ne_nil sep rest)
      | cons s0 ss =>
        rw [hs] at ih
        cases ss with
        | nil =>
          rw [joinSegs_single] at ih
          rw [joinSegs_single, ih]
        | cons s1 ss2 =>
          rw [joinSegs_cons2] at ih
          rw [joinSegs_cons2, List.cons_append, ih]

/-- A separator-free string splits to itself. -/
theorem splitOnSep_sepFree (sep : Char) (s : Str)
    (h : s.all (fun c => !(c = sep)) = true) : splitOnSep sep s = [s] := by
  induction s with
  | nil => rfl
  | cons c rest ih =>
    simp only [List.all_cons, Bool.and_eq_true, Bool.not_eq_eq_eq_not,
      Bool.not_true] at h
    have hc : ¬ c = sep := by
      intro hc
      rw [decide_eq_false_iff_not] at h
      · exact h.1 hc
    rw [splitOnSep, if_neg hc, ih (by simpa using h.2)]

/-- Splitting after appending a separator splits off the first segment. -/
theorem splitOnSep_append (sep : Char) (s t : Str)
    (h : s.all (fun c => !(c = sep)) = true) :
    splitOnSep sep (s ++ sep :: t) = s :: splitOnSep sep t := by
  induction s with
  | nil => simp [splitOnSep]
  | cons c rest ih =>
    simp only [List.all_cons, Bool.and_eq_true] at h
    have hc : ¬ c = sep := by
      have := h.1
      simp only [Bool.not_eq_eq_eq_not, Bool.not_true,
        decide_eq_false_iff_not] at this
      exact this
    rw [List.cons_append, splitOnSep, if_neg hc, ih h.2]

/-- Splitting is a right inverse of joining on nonempty lists of
separator-free segments. -/
theorem splitOnSep_joinSegs (sep : Char) (segs : List Str)
    (hne : segs ≠ [])
    (hfree : ∀ s ∈ segs, s.all (fun c => !(c = sep)) = true) :
    splitOnSep sep (joinSegs sep segs) = segs := by
  induction segs with
  | nil => exact absurd rfl hne
  | cons s rest ih =>
    cases rest with
    | nil =>
      rw [joinSegs_single]
      exact splitOnSep_sepFree sep s (hfree s (List.mem_cons_self _ _))
    | cons s1 rest2 =>
      rw [joinSegs_cons2]
      rw [splitOnSep_append sep s _ (hfree s (List.mem_cons_self _ _))]
      rw [ih (by simp) (fun x hx => hfree x (List.mem_cons_of_mem _ hx))]

/-- Folding `joinKey` over segments, as the flatten loop does when it
descends. -/
def joinSegsFrom (sep : Char) (parent : Str) (segs : List Str) : Str :=
  segs.foldl (joinKey sep) parent

/-- Starting from the empty parent, folding `joinKey` agrees with
`sep.join` whenever the first segment is nonempty (or there is only one
segment): only a leading empty segment makes Python's truthiness collapse
the separator. -/
def headOkB : List Str → Bool
  | [] => false
  | [_] => true
  | s :: _ => !s.isEmpty

theorem joinKey_ne_nil (sep : Char) (parent k : Str) (hp : parent ≠ []) :
    joinKey sep parent k ≠ [] := by
  rw [joinKey, if_neg hp]
  simp

theorem joinSegsFrom_nonempty_parent (sep : Char) (parent : Str)
    (segs : List Str) (hp : parent ≠ []) :
    joinSegsFrom sep parent segs = parent ++ (segs.flatMap (fun s => sep :: s)) := by
  induction segs generalizing parent with
  | nil => simp [joinSegsFrom]
  | cons s rest ih =>
    rw [joinSegsFrom, List.foldl_cons]
    have hstep : joinKey sep parent s = parent ++ sep :: s := by
      rw [joinKey, if_neg hp]
    rw [hstep]
    have hne : parent ++ sep :: s ≠ [] := by simp
    have := ih (parent ++ sep :: s) hne
    rw [joinSegsFrom] at this
    rw [this]
    simp [List.flatMap_cons]

theorem joinSegs_cons_flatMap (sep : Char) (xs : List Str) (s : Str) :
    joinSegs sep (s :: xs) = s ++ xs.flatMap (fun t => sep :: t) := by
  induction xs generalizing s with
  | nil => simp [joinSegs]
  | cons t rest ih =>
    rw [joinSegs_cons2, ih t]
    simp

/-- On well-led segment lists the loop's `joinKey` folding agrees with
`sep.join`. -/
theorem joinSegsFrom_eq_joinSegs (sep : Char) (segs : List Str)
    (h : headOkB segs = true) :
    joinSegsFrom sep [] segs = joinSegs sep segs := by
  cases segs with
  | nil => cases h
  | cons s rest =>
    cases rest with
    | nil =>
      show joinKey sep [] s = joinSegs sep [s]
      rw [joinKey, if_pos rfl, joinSegs_single]
    | cons t rest2 =>
      have hs : s ≠ [] := by
        intro hc
        subst hc
        exact Bool.noConfusion h
      have hstep : joinSegsFrom sep [] (s :: t :: rest2) =
          joinSegsFrom sep s (t :: rest2) := by
        rw [joinSegsFrom, List.foldl_cons, joinKey, if_pos rfl]
        rfl
      rw [hstep, joinSegsFrom_nonempty_parent sep s _ hs,
        joinSegs_cons_flatMap]

/-- Whether a Python value is a scalar (not a dict and not a list). -/
def isScalarB : Json → Bool
  | .obj _ => false
  | .arr _ => false
  | _ => true

mutual

/-- The scalar leaves of a document, as (segment path, scalar) pairs in
natural document order.  Sequence elements contribute their stringified
index as a segment. -/
def treePaths : Json → List (List Str × Json)
  | .obj fs => treePathsO fs
  | .arr xs => treePathsL 0 xs
  | j => [([], j)]

/-- `treePaths` over the fields of a mapping. -/
def treePathsO : List (Str × Json) → List (List Str × Json)
  | [] => []
  | (k, v) :: fs =>
    (treePaths v).map (fun pv => (k :: pv.1, pv.2)) ++ treePathsO fs

/-- `treePaths` over the elements of a sequence, starting at index `i`. -/
def treePathsL : Nat → List Json → List (List Str × Json)
  | _, [] => []
  | i, x :: xs =>
    (treePaths x).map (fun pv => (natStr i :: pv.1, pv.2)) ++
      treePathsL (i + 1) xs

end

/-- The (compound key, scalar) pairs produced by flattening below `parent`:
each leaf's segment path folded onto the parent with `joinKey`. -/
def flatPairs (sep : Char) (parent : Str) (d : Json) : List (Str × Json) :=
  (treePaths d).map (fun pv => (joinSegsFrom sep parent pv.1, pv.2))

/-- The `(value, key)` pairs pushed by the sequence branch of the flatten
loop: `for i, v in enumerate(current): stack.append((v, new_key))`. -/
def enumPairs (sep : Char) (parent : Str) : Nat → List Json → List (Json × Str)
  | _, [] => []
  | i, x :: xs =>
    (x, joinKey sep parent (natStr i)) :: enumPairs sep parent (i + 1) xs

/-- Size of a flatten-loop stack. -/
def fsize : List (Json × Str) → Nat
  | [] => 0
  | (j, _) :: rest => jsize j + fsize rest

theorem fsize_append (a b : List (Json × Str)) :
    fsize (a ++ b) = fsize a + fsize b := by
  induction a with
  | nil => simp [fsize]
  | cons jp rest ih =>
    obtain ⟨j, p⟩ := jp
    simp [fsize, ih]
    omega

theorem fsize_reverse (a : List (Json × Str)) : fsize a.reverse = fsize a := by
  induction a with
  | nil => rfl
  | cons jp rest ih =>
    obtain ⟨j, p⟩ := jp
    simp [fsize, List.reverse_cons, fsize_append, ih]
    omega

theorem fsize_map_fields (fs : List (Str × Json)) (g : Str → Str) :
    fsize (fs.map (fun kv => (kv.2, g kv.1))) = osize fs := by
  induction fs with
  | nil => rfl
  | cons kv rest ih =>
    obtain ⟨k, v⟩ := kv
    simp [fsize, osize, ih]

theorem fsize_enumPairs (sep : Char) (parent : Str) (i : Nat) (xs : List Json) :
    fsize (enumPairs sep parent i xs) = lsize xs := by
  induction xs generalizing i with
  | nil => rfl
  | cons x rest ih => simp [enumPairs, fsize, lsize, ih]

/-- The `while stack:` loop of `flatten_json`.  The head of the list is the
top of the stack; a dict pushes its `(value, joined key)` pairs in field
order (last field on top), a list pushes its enumerated elements, and a
scalar stores `items[parent] = current`. -/
def flattenLoop (sep : Char) :
    List (Json × Str) → List (Str × Json) → List (Str × Json)
  | [], items => items
  | (Json.obj fs, parent) :: stack, items =>
    flattenLoop sep
      ((fs.map (fun kv => (kv.2, joinKey sep parent kv.1))).reverse ++ stack)
      items
  | (Json.arr xs, parent) :: stack, items =>
    flattenLoop sep ((enumPairs sep parent 0 xs).reverse ++ stack) items
  | (j, parent) :: stack, items => flattenLoop sep stack (insertD items parent j)
  termination_by stack _ => fsize stack
  decreasing_by
  · simp [fsize, jsize, fsize_append, fsize_reverse, fsize_map_fields]
  · simp [fsize, jsize, fsize_append, fsize_reverse, fsize_enumPairs]
  · simp only [fsize]
    have := jsize_pos j
    omega

/-- `JSONUtils.flatten_json` (threading, lines 167-198). -/
def flatten_json (data : Json) (parent_key : Str) (sep : Char) :
    List (Str × Json) :=
  flattenLoop sep [(data, parent_key)] []

/-- One flat entry's insertion pass of `unflatten_json`, functionally:
`d = nested; for key in keys[:-1]: (if key not in d: d[key] = {}); d =
d[key]`, then `d[keys[-1]] = value`.  Walking into a non-dict value raises
in Python (TypeError), modelled as `none`. -/
def insertPath :
    List (Str × Json) → List Str → Json → Option (List (Str × Json))
  | _, [], _ => none
  | d, [k], v => some (insertD d k v)
  | d, k :: k2 :: rest, v =>
    match lookupD d k with
    | none =>
      match insertPath [] (k2 :: rest) v with
      | some sub => some (insertD d k (Json.obj sub))
      | none => none
    | some (Json.obj sub) =>
      match insertPath sub (k2 :: rest) v with
      | some sub2 => some (insertD d k (Json.obj sub2))
      | none => none
    | some _ => none

/-- `JSONUtils.unflatten_json` (threading, lines 200-223): fold the flat
entries in order, splitting each compound key on the separator. -/
def unflatten_json (flat : List (Str × Json)) (sep : Char) :
    Option (List (Str × Json)) :=
  flat.foldlM
    (fun nested kv => insertPath nested (splitOnSep sep kv.1) kv.2) []

/-- All flat pairs still to be produced from a flatten-loop stack. -/
def stackPairs (sep : Char) (stack : List (Json × Str)) : List (Str × Json) :=
  stack.flatMap (fun cp => flatPairs sep cp.2 cp.1)

theorem stackPairs_append (sep : Char) (a b : List (Json × Str)) :
    stackPairs sep (a ++ b) = stackPairs sep a ++ stackPairs sep b := by
  simp [stackPairs]

theorem stackPairs_reverse_perm (sep : Char) (a : List (Json × Str)) :
    (stackPairs sep a.reverse).Perm (stackPairs sep a) :=
  (List.reverse_perm a).flatMap_right _

theorem stackPairs_map_fields (sep : Char) (parent : Str)
    (fs : List (Str × Json)) :
    stackPairs sep (fs.map (fun kv => (kv.2, joinKey sep parent kv.1))) =
      flatPairs sep parent (Json.obj fs) := by
  induction fs with
  | nil => rfl
  | cons kv rest ih =>
    obtain ⟨k, v⟩ := kv
    show flatPairs sep (joinKey sep parent k) v ++
        stackPairs sep (rest.map (fun kv => (kv.2, joinKey sep parent kv.1))) = _
    rw [ih]
    show _ = (treePathsO ((k, v) :: rest)).map
      (fun pv => (joinSegsFrom sep parent pv.1, pv.2))
    rw [treePathsO, List.map_append, List.map_map]
    rfl

theorem stackPairs_enumPairs (sep : Char) (parent : Str) (i : Nat)
    (xs : List Json) :
    stackPairs sep (enumPairs sep parent i xs) =
      (treePathsL i xs).map (fun pv => (joinSegsFrom sep parent pv.1, pv.2)) := by
  induction xs generalizing i with
  | nil => rfl
  | cons x rest ih =>
    rw [enumPairs, treePathsL]
    show flatPairs sep (joinKey sep parent (natStr i)) x ++
        stackPairs sep (enumPairs sep parent (i + 1) rest) = _
    rw [ih (i + 1), List.map_append, List.map_map]
    rfl

theorem treePaths_scalar (j : Json) (hobj : ∀ fs, j ≠ Json.obj fs)
    (harr : ∀ xs, j ≠ Json.arr xs) : treePaths j = [([], j)] := by
  cases j with
  | obj fs => exact absurd rfl (hobj fs)
  | arr xs => exact absurd rfl (harr xs)
  | null => rfl
  | bool b => rfl
  | num n => rfl
  | str s => rfl

/-- The flatten loop computes, up to permutation, the items stored so far
followed by all flat pairs of the documents still on the stack — provided
the flat keys are pairwise distinct and fresh with respect to the stored
items (otherwise a later `items[key] = ...` would overwrite). -/
theorem flattenLoop_perm (sep : Char) (stack : List (Json × Str))
    (items : List (Str × Json))
    (hnd : ((stackPairs sep stack).map Prod.fst).Nodup)
    (hdisj : ∀ k ∈ (stackPairs sep stack).map Prod.fst, memD items k = false) :
    (flattenLoop sep stack items).Perm (items ++ stackPairs sep stack) := by
  induction stack, items using flattenLoop.induct sep with
  | case1 items =>
    simp [flattenLoop, stackPairs]
  | case2 fs parent stack items ih =>
    rw [flattenLoop]
    have hpairs : (stackPairs sep
        ((fs.map (fun kv => (kv.2, joinKey sep parent kv.1))).reverse ++ stack)).Perm
        (stackPairs sep ((Json.obj fs, parent) :: stack)) := by
      rw [stackPairs_append]
      have h1 := stackPairs_reverse_perm sep
        (fs.map (fun kv => (kv.2, joinKey sep parent kv.1)))
      rw [stackPairs_map_fields] at h1
      have h2 : stackPairs sep ((Json.obj fs, parent) :: stack) =
          flatPairs sep parent (Json.obj fs) ++ stackPairs sep stack := by
        simp [stackPairs]
      rw [h2]
      exact h1.append_right _
    have hkeys := hpairs.map Prod.fst
    have ih2 := ih (hkeys.symm.nodup hnd)
      (fun k hk => hdisj k (hkeys.subset hk))
    refine ih2.trans ?_
    exact hpairs.append_left items
  | case3 xs parent stack items ih =>
    rw [flattenLoop]
    have hpairs : (stackPairs sep
        ((enumPairs sep parent 0 xs).reverse ++ stack)).Perm
        (stackPairs sep ((Json.arr xs, parent) :: stack)) := by
      rw [stackPairs_append]
      have h1 := stackPairs_reverse_perm sep (enumPairs sep parent 0 xs)
      rw [stackPairs_enumPairs] at h1
      have h2 : stackPairs sep ((Json.arr xs, parent) :: stack) =
          (treePathsL 0 xs).map
            (fun pv => (joinSegsFrom sep parent pv.1, pv.2)) ++
            stackPairs sep stack := by
        simp [stackPairs, flatPairs, treePaths]
      rw [h2]
      exact h1.append_right _
    have hkeys := hpairs.map Prod.fst
    have ih2 := ih (hkeys.symm.nodup hnd)
      (fun k hk => hdisj k (hkeys.subset hk))
    refine ih2.trans ?_
    exact hpairs.append_left items
  | case4 j parent stack items hobj harr ih =>
    rw [flattenLoop]
    · have hflat : stackPairs sep ((j, parent) :: stack) =
          (parent, j) :: stackPairs sep stack := by
        show flatPairs sep parent j ++ stackPairs sep stack = _
        rw [flatPairs, treePaths_scalar j
          (fun fs hc => hobj fs hc) (fun xs hc => harr xs hc)]
        rfl
      rw [hflat] at hnd hdisj
      simp only [List.map_cons, List.nodup_cons] at hnd
      have hfresh : memD items parent = false :=
        hdisj parent (List.mem_cons_self _ _)
      rw [insertD_of_not_memD items parent j hfresh] at ih ⊢
      have ih2 := ih hnd.2 ?_
      · refine ih2.trans ?_
        rw [hflat, List.append_assoc]
        simp
      · intro k hk
        rw [memD_append]
        have h1 : memD items k = false := hdisj k (List.mem_cons_of_mem _ hk)
        have h2 : memD [(parent, j)] k = false := by
          have hne : k ≠ parent := by
            intro hc
            exact hnd.1 (hc ▸ hk)
          simp [memD, lookupD, Ne.symm hne]
        rw [h1, h2]
        rfl
    · exact fun fs hc => hobj fs hc
    · exact fun xs hc => harr xs hc

/-- `flatten_json` produces, up to dict ordering, exactly the flat pairs of
the document, whenever those have pairwise-distinct compound keys. -/
theorem flatten_json_perm (sep : Char) (d : Json) (parent : Str)
    (hnd : ((flatPairs sep parent d).map Prod.fst).Nodup) :
    (flatten_json d parent sep).Perm (flatPairs sep parent d) := by
  have hsp : stackPairs sep [(d, parent)] = flatPairs sep parent d := by
    simp [stackPairs]
  have h := flattenLoop_perm sep [(d, parent)] []
    (by rw [hsp]; exact hnd)
    (by intro k _; rfl)
  rw [hsp] at h
  simpa [flatten_json] using h

-- ---------------------------------------------------------------------------
-- The trees built by unflatten_json.
-- ---------------------------------------------------------------------------

mutual

/-- Invariant of every value inside a tree built by `unflatten_json`:
no sequences, no empty nested mappings, pairwise-distinct keys. -/
def trieVal : Json → Bool
  | .obj fs => !fs.isEmpty && nodupKeysB fs && trieFields fs
  | .arr _ => false
  | _ => true

/-- `trieVal` for every value of a field list. -/
def trieFields : List (Str × Json) → Bool
  | [] => true
  | (_, v) :: fs => trieVal v && trieFields fs

end

/-- Invariant of the root mapping built by `unflatten_json` (the root may be
empty). -/
def trieRoot (fs : List (Str × Json)) : Bool :=
  nodupKeysB fs && trieFields fs

/-- `p` is a (possibly improper) prefix of `q` as segment lists. -/
def segPreB : List Str → List Str → Bool
  | [], _ => true
  | _ :: _, [] => false
  | a :: as, b :: bs => a = b && segPreB as bs

theorem segPreB_cons (k : Str) (a b : List Str) :
    segPreB (k :: a) (k :: b) = segPreB a b := by
  simp [segPreB]

theorem nodupKeysB_iff (l : List (Str × Json)) :
    nodupKeysB l = true ↔ (l.map Prod.fst).Nodup := by
  induction l with
  | nil => simp [nodupKeysB]
  | cons kv fs ih =>
    obtain ⟨k, v⟩ := kv
    rw [nodupKeysB]
    simp only [List.map_cons, List.nodup_cons, Bool.and_eq_true, ih]
    constructor
    · intro h
      refine ⟨?_, h.2⟩
      intro hc
      rcases List.mem_map.mp hc with ⟨kv2, hkv2, hk⟩
      have : fs.any (fun kv => kv.1 = k) = true :=
        List.any_eq_true.mpr ⟨kv2, hkv2, by simp [hk]⟩
      rw [this] at h
      exact Bool.noConfusion h.1
    · intro h
      refine ⟨?_, h.2⟩
      cases hany : fs.any (fun kv => kv.1 = k) with
      | false => rfl
      | true =>
        rcases List.any_eq_true.mp hany with ⟨kv2, hkv2, hk⟩
        simp only [decide_eq_true_eq] at hk
        exact absurd (hk ▸ List.mem_map_of_mem Prod.fst hkv2) h.1

theorem trieFields_append (a b : List (Str × Json)) :
    trieFields (a ++ b) = (trieFields a && trieFields b) := by
  induction a with
  | nil => simp [trieFields]
  | cons kv fs ih =>
    obtain ⟨k, v⟩ := kv
    simp [trieFields, ih, Bool.and_assoc]

theorem trieFields_mem (fs : List (Str × Json)) (kv : Str × Json)
    (h : trieFields fs = true) (hmem : kv ∈ fs) : trieVal kv.2 = true := by
  induction fs with
  | nil => cases hmem
  | cons kv0 rest ih =>
    obtain ⟨k0, v0⟩ := kv0
    rw [trieFields, Bool.and_eq_true] at h
    rcases List.mem_cons.mp hmem with hm | hm
    · rw [hm]; exact h.1
    · exact ih h.2 hm

theorem treePathsO_append (a b : List (Str × Json)) :
    treePathsO (a ++ b) = treePathsO a ++ treePathsO b := by
  induction a with
  | nil => rfl
  | cons kv fs ih =>
    obtain ⟨k, v⟩ := kv
    rw [List.cons_append, treePathsO, treePathsO, ih, List.append_assoc]

theorem treePaths_of_scalar (v : Json) (hv : isScalarB v = true) :
    treePaths v = [([], v)] := by
  cases v <;> first | rfl | exact Bool.noConfusion hv

/-- Under the trie invariant every value has at least one scalar path. -/
theorem treePaths_ne_nil_aux (n : Nat) :
    ∀ v, jsize v ≤ n → trieVal v = true → treePaths v ≠ [] := by
  induction n with
  | zero =>
    intro v hle _
    have := jsize_pos v
    omega
  | succ n ih =>
    intro v hle htrie
    cases v with
    | arr xs => exact Bool.noConfusion htrie
    | obj fs =>
      cases fs with
      | nil => exact Bool.noConfusion htrie
      | cons kv rest =>
        obtain ⟨k, w⟩ := kv
        rw [trieVal, Bool.and_eq_true, Bool.and_eq_true] at htrie
        have hw : trieVal w = true := by
          have := htrie.2
          rw [trieFields, Bool.and_eq_true] at this
          exact this.1
        have hwsize : jsize w ≤ n := by
          rw [jsize, osize] at hle
          omega
        have hne := ih w hwsize hw
        rw [treePaths, treePathsO]
        intro hc
        rcases List.append_eq_nil.mp hc with ⟨hc1, _⟩
        exact hne (List.map_eq_nil.mp hc1)
    | null => simp [treePaths]
    | bool b => simp [treePaths]
    | num m => simp [treePaths]
    | str s => simp [treePaths]

theorem treePaths_ne_nil (v : Json) (htrie : trieVal v = true) :
    treePaths v ≠ [] :=
  treePaths_ne_nil_aux (jsize v) v (le_refl _) htrie

/-- First-occurrence decomposition of a successful lookup. -/
theorem lookupD_some_decomp (d : List (Str × Json)) (k : Str) (w : Json)
    (h : lookupD d k = some w) :
    ∃ l1 l2, d = l1 ++ (k, w) :: l2 ∧ (∀ kv ∈ l1, kv.1 ≠ k) := by
  induction d with
  | nil => cases h
  | cons kv fs ih =>
    obtain ⟨k0, v0⟩ := kv
    rw [lookupD] at h
    by_cases hk : k0 = k
    · rw [if_pos hk] at h
      injection h with h
      exact ⟨[], fs, by rw [hk, h]; rfl, by intro kv hkv; cases hkv⟩
    · rw [if_neg hk] at h
      rcases ih h with ⟨l1, l2, hd, hl1⟩
      refine ⟨(k0, v0) :: l1, l2, by rw [List.cons_append, hd], ?_⟩
      intro kv hkv
      rcases List.mem_cons.mp hkv with hm | hm
      · rw [hm]; exact hk
      · exact hl1 kv hm

theorem insertD_decomp (l1 l2 : List (Str × Json)) (k : Str) (w v : Json)
    (h1 : ∀ kv ∈ l1, kv.1 ≠ k) :
    insertD (l1 ++ (k, w) :: l2) k v = l1 ++ (k, v) :: l2 := by
  induction l1 with
  | nil => simp [insertD]
  | cons kv fs ih =>
    obtain ⟨k0, v0⟩ := kv
    have hk0 : k0 ≠ k := h1 (k0, v0) (List.mem_cons_self _ _)
    rw [List.cons_append, insertD, if_neg hk0,
      ih (fun kv hkv => h1 kv (List.mem_cons_of_mem _ hkv))]
    rfl

/-- The scalar paths of the subtree under a fixed first segment `k`. -/
def pathsUnder (k : Str) (ps : List (List Str × Json)) :
    List (List Str × Json) :=
  ps.filterMap (fun pv =>
    match pv.1 with
    | k0 :: p => if k0 = k then some (p, pv.2) else none
    | [] => none)

theorem pathsUnder_append (k : Str) (a b : List (List Str × Json)) :
    pathsUnder k (a ++ b) = pathsUnder k a ++ pathsUnder k b := by
  simp [pathsUnder]

theorem pathsUnder_map_cons_self (k : Str) (ps : List (List Str × Json)) :
    pathsUnder k (ps.map (fun pv => (k :: pv.1, pv.2))) = ps := by
  induction ps with
  | nil => rfl
  | cons pv rest ih =>
    obtain ⟨p, v⟩ := pv
    simp only [List.map_cons, pathsUnder, List.filterMap_cons]
    rw [pathsUnder] at ih
    simp [ih]

theorem pathsUnder_map_cons_other (k k2 : Str) (hk : k2 ≠ k)
    (ps : List (List Str × Json)) :
    pathsUnder k (ps.map (fun pv => (k2 :: pv.1, pv.2))) = [] := by
  induction ps with
  | nil => rfl
  | cons pv rest ih =>
    obtain ⟨p, v⟩ := pv
    simp only [List.map_cons, pathsUnder, List.filterMap_cons]
    rw [pathsUnder] at ih
    simp [ih, hk]

/-- Fields whose key differs from `k` contribute no paths under `k`. -/
theorem pathsUnder_nil_of_keys (k : Str) (fs : List (Str × Json))
    (h : ∀ kv ∈ fs, kv.1 ≠ k) : pathsUnder k (treePathsO fs) = [] := by
  induction fs with
  | nil => rfl
  | cons kv rest ih =>
    obtain ⟨k0, v⟩ := kv
    rw [treePathsO, pathsUnder_append]
    rw [pathsUnder_map_cons_other k k0 (h (k0, v) (List.mem_cons_self _ _)) _,
      ih (fun kv hkv => h kv (List.mem_cons_of_mem _ hkv))]
    rfl

/-- With pairwise-distinct keys, the paths under `k` are exactly the paths
of the value stored at `k`. -/
theorem pathsUnder_eq_treePaths (fs : List (Str × Json)) (k : Str) (w : Json)
    (hnd : nodupKeysB fs = true) (hlk : lookupD fs k = some w) :
    pathsUnder k (treePathsO fs) = treePaths w := by
  rcases lookupD_some_decomp fs k w hlk with ⟨l1, l2, hd, hl1⟩
  have hl2 : ∀ kv ∈ l2, kv.1 ≠ k := by
    intro kv hkv hc
    rw [hd, nodupKeysB_iff] at hnd
    simp only [List.map_append, List.map_cons] at hnd
    rcases List.nodup_append.mp hnd with ⟨_, hnd2, _⟩
    rw [List.nodup_cons] at hnd2
    exact hnd2.1 (hc ▸ List.mem_map_of_mem Prod.fst hkv)
  rw [hd, treePathsO_append, treePathsO, pathsUnder_append, pathsUnder_append]
  rw [pathsUnder_nil_of_keys k l1 hl1, pathsUnder_nil_of_keys k l2 hl2,
    pathsUnder_map_cons_self]
  simp

/-- Every key of a trie owns at least one path, whose first segment is that
key. -/
theorem exists_path_of_lookup (fs : List (Str × Json)) (k : Str) (w : Json)
    (htf : trieFields fs = true) (hlk : lookupD fs k = some w) :
    ∃ p v, (k :: p, v) ∈ treePathsO fs := by
  rcases lookupD_some_decomp fs k w hlk with ⟨l1, l2, hd, _⟩
  have hw : trieVal w = true := by
    refine trieFields_mem fs (k, w) htf ?_
    rw [hd]
    exact List.mem_append_right _ (List.mem_cons_self _ _)
  have hne := treePaths_ne_nil w hw
  cases hps : treePaths w with
  | nil => exact absurd hps hne
  | cons pv rest =>
    refine ⟨pv.1, pv.2, ?_⟩
    rw [hd, treePathsO_append, treePathsO]
    refine List.mem_append_right _ (List.mem_append_left _ ?_)
    rw [hps]
    exact List.mem_map_of_mem _ (List.mem_cons_self _ _)

/-- Conversely, every path's first segment is a key of the mapping. -/
theorem head_mem_keys_of_path (fs : List (Str × Json)) (k : Str)
    (p : List Str) (v : Json) (hmem : (k :: p, v) ∈ treePathsO fs) :
    ∃ w, lookupD fs k = some w := by
  induction fs with
  | nil => cases hmem
  | cons kv rest ih =>
    obtain ⟨k0, w0⟩ := kv
    rw [treePathsO] at hmem
    rcases List.mem_append.mp hmem with hm | hm
    · rcases List.mem_map.mp hm with ⟨pv, _, hpv⟩
      have hk : k0 = k := by
        have := congrArg Prod.fst hpv
        simpa using (congrArg List.head? this)
      rw [lookupD, if_pos hk]
      exact ⟨w0, rfl⟩
    · rcases ih hm with ⟨w, hw⟩
      by_cases hk : k0 = k
      · exact ⟨w0, by rw [lookupD, if_pos hk]⟩
      · exact ⟨w, by rw [lookupD, if_neg hk]; exact hw⟩

theorem trieVal_of_scalar (v : Json) (hv : isScalarB v = true) :
    trieVal v = true := by
  cases v <;> first | rfl | exact Bool.noConfusion hv

theorem lookupD_some_mem (d : List (Str × Json)) (k : Str) (w : Json)
    (h : lookupD d k = some w) : (k, w) ∈ d := by
  rcases lookupD_some_decomp d k w h with ⟨l1, l2, hd, _⟩
  rw [hd]
  exact List.mem_append_right _ (List.mem_cons_self _ _)

theorem mem_treePathsO_of_lookup (acc : List (Str × Json)) (k : Str)
    (w : Json) (pv : List Str × Json) (hlk : lookupD acc k = some w)
    (hpv : pv ∈ treePaths w) : (k :: pv.1, pv.2) ∈ treePathsO acc := by
  rcases lookupD_some_decomp acc k w hlk with ⟨l1, l2, hd, _⟩
  rw [hd, treePathsO_append, treePathsO]
  exact List.mem_append_right _
    (List.mem_append_left _ (List.mem_map_of_mem _ hpv))

theorem nodupKeysB_append_single (acc : List (Str × Json)) (k : Str)
    (v : Json) (hnd : nodupKeysB acc = true) (hfresh : memD acc k = false) :
    nodupKeysB (acc ++ [(k, v)]) = true := by
  rw [nodupKeysB_iff] at hnd ⊢
  have hnm : k ∉ acc.map Prod.fst := by
    intro hc
    rw [← memD_iff_mem_keys] at hc
    rw [hc] at hfresh
    exact Bool.noConfusion hfresh
  have hperm : ((acc ++ [(k, v)]).map Prod.fst).Perm (k :: acc.map Prod.fst) := by
    rw [List.map_append]
    exact List.perm_append_singleton _ _
  exact hperm.symm.nodup (List.nodup_cons.mpr ⟨hnm, hnd⟩)

theorem perm_insert_middle {α : Type} (P1 M P2 X N : List α)
    (h : List.Perm N (M ++ X)) :
    List.Perm (P1 ++ (N ++ P2)) ((P1 ++ (M ++ P2)) ++ X) := by
  have h1 : List.Perm (P1 ++ (N ++ P2)) (P1 ++ ((M ++ X) ++ P2)) :=
    List.Perm.append_left P1 (h.append_right P2)
  refine h1.trans ?_
  have h2 : List.Perm ((M ++ X) ++ P2) (M ++ (P2 ++ X)) := by
    rw [List.append_assoc]
    exact List.Perm.append_left M (List.perm_append_comm)
  refine (List.Perm.append_left P1 h2).trans ?_
  have e : (P1 ++ (M ++ P2)) ++ X = P1 ++ (M ++ (P2 ++ X)) := by
    simp [List.append_assoc]
  rw [e]

/-- Inserting one flat entry into a trie: an entry whose segment path is not
prefix-comparable with any existing scalar path succeeds, preserves the trie
invariant, and adds exactly that scalar path. -/
theorem insertPath_spec (segs : List Str) :
    ∀ (acc : List (Str × Json)) (v : Json),
    trieRoot acc = true →
    segs ≠ [] →
    isScalarB v = true →
    (∀ q ∈ treePathsO acc, segPreB segs q.1 = false ∧ segPreB q.1 segs = false) →
    ∃ acc2, insertPath acc segs v = some acc2 ∧ trieRoot acc2 = true ∧
      (treePathsO acc2).Perm (treePathsO acc ++ [(segs, v)]) := by
  induction segs with
  | nil =>
    intro acc v _ hne _ _
    exact absurd rfl hne
  | cons k rest ih =>
    intro acc v hroot _ hv hnp
    rw [trieRoot, Bool.and_eq_true] at hroot
    cases rest with
    | nil =>
      have hlk : lookupD acc k = none := by
        cases hlk : lookupD acc k with
        | none => rfl
        | some w =>
          exfalso
          rcases exists_path_of_lookup acc k w hroot.2 hlk with ⟨p, v2, hmem⟩
          have h := (hnp _ hmem).1
          simp [segPreB] at h
      have hfresh : memD acc k = false := by rw [memD, hlk]; rfl
      refine ⟨insertD acc k v, rfl, ?_, ?_⟩
      · rw [insertD_of_not_memD acc k v hfresh, trieRoot, Bool.and_eq_true]
        refine ⟨nodupKeysB_append_single acc k v hroot.1 hfresh, ?_⟩
        rw [trieFields_append, hroot.2, trieFields, trieVal_of_scalar v hv]
        rfl
      · rw [insertD_of_not_memD acc k v hfresh, treePathsO_append, treePathsO,
          treePaths_of_scalar v hv]
        simp [treePathsO]
    | cons k2 rest2 =>
      cases hlk : lookupD acc k with
      | none =>
        rcases ih [] v rfl (by simp) hv (by intro q hq; cases hq)
          with ⟨sub, hins, hsubroot, hsubperm⟩
        have hsubne : ¬ sub = [] := by
          intro hc
          subst hc
          have := hsubperm.length_eq
          simp [treePathsO] at this
        have hfresh : memD acc k = false := by rw [memD, hlk]; rfl
        refine ⟨insertD acc k (Json.obj sub), ?_, ?_, ?_⟩
        · simp only [insertPath, hlk, hins]
        · rw [insertD_of_not_memD acc k _ hfresh, trieRoot, Bool.and_eq_true]
          refine ⟨nodupKeysB_append_single acc k _ hroot.1 hfresh, ?_⟩
          rw [trieFields_append, hroot.2, trieFields]
          rw [trieRoot, Bool.and_eq_true] at hsubroot
          rw [trieVal]
          simp [hsubne, hsubroot.1, hsubroot.2, trieFields]
        · rw [insertD_of_not_memD acc k _ hfresh, treePathsO_append, treePathsO]
          refine List.Perm.append_left _ ?_
          rw [treePaths]
          have hmap := hsubperm.map (fun pv => (k :: pv.1, pv.2))
          simp only [treePathsO, List.map_append, List.map_cons,
            List.map_nil, List.nil_append] at hmap
          simpa [treePathsO] using hmap
      | some w =>
        have hwmem : (k, w) ∈ acc := lookupD_some_mem acc k w hlk
        have hwval : trieVal w = true := trieFields_mem acc (k, w) hroot.2 hwmem
        cases w with
        | arr xs => exact absurd hwval (by rw [trieVal]; simp)
        | null =>
          exfalso
          have hmem := mem_treePathsO_of_lookup acc k Json.null ([], Json.null)
            hlk (by rw [treePaths_of_scalar Json.null rfl]; exact List.mem_cons_self _ _)
          have h := (hnp _ hmem).2
          simp [segPreB] at h
        | bool b =>
          exfalso
          have hmem := mem_treePathsO_of_lookup acc k (Json.bool b)
            ([], Json.bool b) hlk
            (by rw [treePaths_of_scalar (Json.bool b) rfl]; exact List.mem_cons_self _ _)
          have h := (hnp _ hmem).2
          simp [segPreB] at h
        | num n =>
          exfalso
          have hmem := mem_treePathsO_of_lookup acc k (Json.num n)
            ([], Json.num n) hlk
            (by rw [treePaths_of_scalar (Json.num n) rfl]; exact List.mem_cons_self _ _)
          have h := (hnp _ hmem).2
          simp [segPreB] at h
        | str s =>
          exfalso
          have hmem := mem_treePathsO_of_lookup acc k (Json.str s)
            ([], Json.str s) hlk
            (by rw [treePaths_of_scalar (Json.str s) rfl]; exact List.mem_cons_self _ _)
          have h := (hnp _ hmem).2
          simp [segPreB] at h
        | obj sub =>
          rcases lookupD_some_decomp acc k (Json.obj sub) hlk
            with ⟨l1, l2, hd, hl1⟩
          have hsubval := hwval
          rw [trieVal, Bool.and_eq_true, Bool.and_eq_true] at hsubval
          have hsubroot : trieRoot sub = true := by
            rw [trieRoot, hsubval.1.2, hsubval.2]
            rfl
          have hnp2 : ∀ q ∈ treePathsO sub,
              segPreB (k2 :: rest2) q.1 = false ∧
                segPreB q.1 (k2 :: rest2) = false := by
            intro q hq
            have hmem := mem_treePathsO_of_lookup acc k (Json.obj sub) q hlk
              (by rw [treePaths]; exact hq)
            have h := hnp _ hmem
            constructor
            · have h1 := h.1
              rw [show segPreB (k :: k2 :: rest2) (k :: q.1) =
                  segPreB (k2 :: rest2) q.1 from segPreB_cons k _ _] at h1
              exact h1
            · have h2 := h.2
              rw [show segPreB (k :: q.1) (k :: k2 :: rest2) =
                  segPreB q.1 (k2 :: rest2) from segPreB_cons k _ _] at h2
              exact h2
          rcases ih sub v hsubroot (by simp) hv hnp2
            with ⟨sub2, hins, hsub2root, hsub2perm⟩
          have hsub2ne : ¬ sub2 = [] := by
            intro hc
            subst hc
            have := hsub2perm.length_eq
            simp only [treePathsO, List.length_nil, List.length_append,
              List.length_cons] at this
            omega
          refine ⟨insertD acc k (Json.obj sub2), ?_, ?_, ?_⟩
          · simp only [insertPath, hlk, hins]
          · rw [hd, insertD_decomp l1 l2 k _ _ hl1, trieRoot,
              Bool.and_eq_true]
            constructor
            · rw [nodupKeysB_iff]
              have hkeys : ((l1 ++ (k, Json.obj sub2) :: l2).map Prod.fst) =
                  ((l1 ++ (k, Json.obj sub) :: l2).map Prod.fst) := by simp
              rw [hkeys, ← nodupKeysB_iff, ← hd]
              exact hroot.1
            · have hold : trieFields acc = true := hroot.2
              rw [hd, trieFields_append, trieFields, Bool.and_eq_true,
                Bool.and_eq_true] at hold
              rw [trieFields_append, trieFields, hold.1]
              rw [trieRoot, Bool.and_eq_true] at hsub2root
              rw [trieVal]
              simp [hsub2ne, hsub2root.1, hsub2root.2, hold.2.2]
          · rw [hd, insertD_decomp l1 l2 k _ _ hl1]
            rw [treePathsO_append, treePathsO, treePathsO_append, treePathsO]
            have hmap := hsub2perm.map (fun pv => (k :: pv.1, pv.2))
            simp only [List.map_append, List.map_cons, List.map_nil] at hmap
            rw [treePaths, treePaths]
            exact perm_insert_middle _ _ _ _ _ (by simpa using hmap)

/-- Folding flat entries whose segment paths are scalar-valued, pairwise
non-prefix-comparable, and non-prefix-comparable with the accumulated
trie's paths builds a trie holding the old paths plus one path per entry. -/
theorem unflatten_fold_spec (sep : Char) (pairs : List (Str × Json)) :
    ∀ (acc : List (Str × Json)),
    trieRoot acc = true →
    (∀ kv ∈ pairs, isScalarB kv.2 = true) →
    (∀ kv ∈ pairs, ∀ q ∈ treePathsO acc,
      segPreB (splitOnSep sep kv.1) q.1 = false ∧
      segPreB q.1 (splitOnSep sep kv.1) = false) →
    List.Pairwise (fun a b =>
      segPreB (splitOnSep sep a.1) (splitOnSep sep b.1) = false ∧
      segPreB (splitOnSep sep b.1) (splitOnSep sep a.1) = false) pairs →
    ∃ N, pairs.foldlM (fun nested kv =>
        insertPath nested (splitOnSep sep kv.1) kv.2) acc = some N ∧
      trieRoot N = true ∧
      (treePathsO N).Perm (treePathsO acc ++
        pairs.map (fun kv => (splitOnSep sep kv.1, kv.2))) := by
  induction pairs with
  | nil =>
    intro acc hacc _ _ _
    exact ⟨acc, rfl, hacc, by simp⟩
  | cons kv0 rest ih =>
    intro acc hacc hsc hnp hpw
    obtain ⟨k0, v0⟩ := kv0
    rcases insertPath_spec (splitOnSep sep k0) acc v0 hacc
        (splitOnSep_ne_nil sep k0) (hsc (k0, v0) (List.mem_cons_self _ _))
        (fun q hq => hnp (k0, v0) (List.mem_cons_self _ _) q hq)
      with ⟨acc1, heq, hacc1, hperm1⟩
    rw [List.pairwise_cons] at hpw
    rcases ih acc1 hacc1
        (fun kv hkv => hsc kv (List.mem_cons_of_mem _ hkv))
        (by
          intro kv hkv q hq
          have hq2 := hperm1.subset hq
          rcases List.mem_append.mp hq2 with hm | hm
          · exact hnp kv (List.mem_cons_of_mem _ hkv) q hm
          · have hqe : q = (splitOnSep sep k0, v0) := by
              simpa using hm
            subst hqe
            have hrel := hpw.1 kv hkv
            exact ⟨hrel.2, hrel.1⟩)
        hpw.2
      with ⟨N, hfold, hN, hpermN⟩
    refine ⟨N, ?_, hN, ?_⟩
    · rw [List.foldlM_cons, heq]
      exact hfold
    · refine hpermN.trans ?_
      refine (hperm1.append_right _).trans ?_
      rw [List.map_cons, List.append_assoc]
      refine List.Perm.append_left _ ?_
      simp

/-- Reflexivity of Python equality on scalars. -/
theorem pyEq_refl_scalar (v : Json) (hv : isScalarB v = true) :
    pyEq v v = true := by
  cases v with
  | null => rfl
  | bool b => simp [pyEq]
  | num n => simp [pyEq]
  | str s => simp [pyEq]
  | arr xs => exact Bool.noConfusion hv
  | obj fs => exact Bool.noConfusion hv

theorem lookupD_eq_of_mem_nodup (gs : List (Str × Json)) (k : Str) (v : Json)
    (hmem : (k, v) ∈ gs) (hnd : nodupKeysB gs = true) :
    lookupD gs k = some v := by
  induction gs with
  | nil => cases hmem
  | cons kv rest ih =>
    obtain ⟨k0, v0⟩ := kv
    rw [nodupKeysB, Bool.and_eq_true] at hnd
    rcases List.mem_cons.mp hmem with hm | hm
    · injection hm with h1 h2
      rw [lookupD, if_pos h1.symm, h2]
    · by_cases hk : k0 = k
      · exfalso
        have : rest.any (fun kv => kv.1 = k0) = true :=
          List.any_eq_true.mpr ⟨(k, v), hm, by simp [hk]⟩
        rw [this] at hnd
        exact Bool.noConfusion hnd.1
      · rw [lookupD, if_neg hk]
        exact ih hm hnd.2

theorem pyEqO_of_forall (fs gs : List (Str × Json))
    (h : ∀ kv ∈ fs, ∃ w, lookupD gs kv.1 = some w ∧ pyEq kv.2 w = true) :
    pyEqO fs gs = true := by
  induction fs with
  | nil => rfl
  | cons kv rest ih =>
    obtain ⟨k, v⟩ := kv
    rcases h (k, v) (List.mem_cons_self _ _) with ⟨w, hw, hpe⟩
    have hpe2 : pyEq v w = true := hpe
    rw [pyEqO, hw]
    show (pyEq v w && pyEqO rest gs) = true
    rw [hpe2, Bool.true_and]
    exact ih (fun kv hkv => h kv (List.mem_cons_of_mem _ hkv))

/-- Python dict equality for flat dicts: a key-permutation of a
scalar-valued dict is `==` to it. -/
theorem pyEq_obj_of_scalar_perm (fs gs : List (Str × Json))
    (hperm : fs.Perm gs) (hnd : nodupKeysB gs = true)
    (hsc : ∀ kv ∈ fs, isScalarB kv.2 = true) :
    pyEq (Json.obj fs) (Json.obj gs) = true := by
  rw [pyEq, Bool.and_eq_true]
  constructor
  · simp [hperm.length_eq]
  · refine pyEqO_of_forall fs gs ?_
    intro kv hkv
    refine ⟨kv.2, ?_, pyEq_refl_scalar kv.2 (hsc kv hkv)⟩
    exact lookupD_eq_of_mem_nodup gs kv.1 kv.2
      (by rw [show (kv.1, kv.2) = kv from rfl]; exact hperm.subset hkv) hnd

theorem paths_cons_headed (fs : List (Str × Json)) (q : List Str × Json)
    (hq : q ∈ treePathsO fs) : ∃ k p, q.1 = k :: p := by
  induction fs with
  | nil => cases hq
  | cons kv rest ih =>
    obtain ⟨k0, v0⟩ := kv
    rw [treePathsO] at hq
    rcases List.mem_append.mp hq with hm | hm
    · rcases List.mem_map.mp hm with ⟨pv, _, hpv⟩
      exact ⟨k0, pv.1, by rw [← hpv]⟩
    · exact ih hm

theorem jsize_le_osize_of_mem (fs : List (Str × Json)) (k : Str) (v : Json)
    (hmem : (k, v) ∈ fs) : jsize v ≤ osize fs := by
  induction fs with
  | nil => cases hmem
  | cons kv rest ih =>
    obtain ⟨k0, v0⟩ := kv
    rw [osize]
    rcases List.mem_cons.mp hmem with hm | hm
    · injection hm with _ h2
      rw [h2]
      omega
    · have := ih hm
      omega

theorem memD_iff_lookup (d : List (Str × Json)) (k : Str) :
    memD d k = true ↔ ∃ w, lookupD d k = some w := by
  rw [memD, Option.isSome_iff_exists]

theorem mem_keys_iff_path (fs : List (Str × Json)) (k : Str)
    (htf : trieFields fs = true) :
    (∃ w, lookupD fs k = some w) ↔ ∃ p v, (k :: p, v) ∈ treePathsO fs := by
  constructor
  · rintro ⟨w, hw⟩
    exact exists_path_of_lookup fs k w htf hw
  · rintro ⟨p, v, hmem⟩
    exact head_mem_keys_of_path fs k p v hmem

theorem treePathsO_ne_nil (fs : List (Str × Json)) (hne : fs ≠ [])
    (htf : trieFields fs = true) : treePathsO fs ≠ [] := by
  cases fs with
  | nil => exact absurd rfl hne
  | cons kv rest =>
    obtain ⟨k, v⟩ := kv
    rw [trieFields, Bool.and_eq_true] at htf
    rw [treePathsO]
    intro hc
    rcases List.append_eq_nil.mp hc with ⟨hc1, _⟩
    exact treePaths_ne_nil v htf.1 (List.map_eq_nil_iff.mp hc1)

theorem not_scalar_paths_perm_obj (subv : List (Str × Json)) (w : Json)
    (hw : isScalarB w = true)
    (hperm : (treePathsO subv).Perm (treePaths w)) : False := by
  have hmem : (([] : List Str), w) ∈ treePaths w := by
    rw [treePaths_of_scalar w hw]
    exact List.mem_cons_self _ _
  have hmem2 : (([] : List Str), w) ∈ treePathsO subv := hperm.symm.subset hmem
  rcases paths_cons_headed subv _ hmem2 with ⟨k, p, hk⟩
  cases hk

theorem pyEq_of_scalar_paths (v w : Json) (hv : isScalarB v = true)
    (hwval : trieVal w = true)
    (hsub : (treePaths v).Perm (treePaths w)) : pyEq v w = true := by
  cases w with
  | arr ys => exact Bool.noConfusion hwval
  | obj subw =>
    exfalso
    refine not_scalar_paths_perm_obj subw v hv ?_
    rw [treePaths] at hsub
    exact hsub.symm
  | null =>
    rw [treePaths_of_scalar v hv, treePaths_of_scalar Json.null rfl] at hsub
    have h := List.perm_singleton.mp hsub
    injection h with h1 _
    injection h1 with _ h2
    rw [h2]
    exact pyEq_refl_scalar _ rfl
  | bool b =>
    rw [treePaths_of_scalar v hv, treePaths_of_scalar (Json.bool b) rfl] at hsub
    have h := List.perm_singleton.mp hsub
    injection h with h1 _
    injection h1 with _ h2
    rw [h2]
    exact pyEq_refl_scalar _ rfl
  | num m =>
    rw [treePaths_of_scalar v hv, treePaths_of_scalar (Json.num m) rfl] at hsub
    have h := List.perm_singleton.mp hsub
    injection h with h1 _
    injection h1 with _ h2
    rw [h2]
    exact pyEq_refl_scalar _ rfl
  | str s =>
    rw [treePaths_of_scalar v hv, treePaths_of_scalar (Json.str s) rfl] at hsub
    have h := List.perm_singleton.mp hsub
    injection h with h1 _
    injection h1 with _ h2
    rw [h2]
    exact pyEq_refl_scalar _ rfl

/-- Two tries with the same multiset of scalar paths are Python-equal:
the structure of a trie is determined by its flat paths. -/
theorem pyEq_of_paths_perm_aux (n : Nat) :
    ∀ fs gs, osize fs ≤ n → trieRoot fs = true → trieRoot gs = true →
    (treePathsO fs).Perm (treePathsO gs) →
    pyEq (Json.obj fs) (Json.obj gs) = true := by
  induction n with
  | zero =>
    intro fs gs hsize hf hg hperm
    have hfs : fs = [] := by
      cases fs with
      | nil => rfl
      | cons kv rest =>
        obtain ⟨k, v⟩ := kv
        rw [osize] at hsize
        have := jsize_pos v
        omega
    subst hfs
    rw [trieRoot, Bool.and_eq_true] at hg
    have hgs : gs = [] := by
      by_contra hne
      refine treePathsO_ne_nil gs hne hg.2 ?_
      have h2 := hperm.symm
      rw [show treePathsO ([] : List (Str × Json)) = [] from rfl] at h2
      exact h2.eq_nil
    subst hgs
    simp [pyEq, pyEqO]
  | succ n ih =>
    intro fs gs hsize hf hg hperm
    rw [trieRoot, Bool.and_eq_true] at hf hg
    have hmemkeys : ∀ k, (∃ w, lookupD fs k = some w) ↔
        (∃ w, lookupD gs k = some w) := by
      intro k
      rw [mem_keys_iff_path fs k hf.2, mem_keys_iff_path gs k hg.2]
      constructor
      · rintro ⟨p, v, hm⟩
        exact ⟨p, v, hperm.subset hm⟩
      · rintro ⟨p, v, hm⟩
        exact ⟨p, v, hperm.symm.subset hm⟩
    have hkeysperm : (fs.map Prod.fst).Perm (gs.map Prod.fst) := by
      rw [List.perm_ext_iff_of_nodup ((nodupKeysB_iff fs).mp hf.1)
        ((nodupKeysB_iff gs).mp hg.1)]
      intro k
      rw [← memD_iff_mem_keys, ← memD_iff_mem_keys,
        memD_iff_lookup, memD_iff_lookup]
      exact hmemkeys k
    have hlen : fs.length = gs.length := by
      have := hkeysperm.length_eq
      simpa using this
    rw [pyEq, Bool.and_eq_true]
    refine ⟨by simp [hlen], ?_⟩
    refine pyEqO_of_forall fs gs ?_
    intro kv hkv
    obtain ⟨k, v⟩ := kv
    have hlkf : lookupD fs k = some v :=
      lookupD_eq_of_mem_nodup fs k v hkv hf.1
    rcases (hmemkeys k).mp ⟨v, hlkf⟩ with ⟨w, hlkg⟩
    refine ⟨w, hlkg, ?_⟩
    have hsub : (treePaths v).Perm (treePaths w) := by
      have h1 := pathsUnder_eq_treePaths fs k v hf.1 hlkf
      have h2 := pathsUnder_eq_treePaths gs k w hg.1 hlkg
      rw [pathsUnder] at h1 h2
      have h3 := hperm.filterMap (fun pv =>
        match pv.1 with
        | k0 :: p => if k0 = k then some (p, pv.2) else none
        | [] => none)
      rw [h1, h2] at h3
      exact h3
    have hvval : trieVal v = true := trieFields_mem fs (k, v) hf.2 hkv
    have hwval : trieVal w = true :=
      trieFields_mem gs (k, w) hg.2 (lookupD_some_mem gs k w hlkg)
    cases v with
    | arr xs => exact Bool.noConfusion hvval
    | null => exact pyEq_of_scalar_paths _ w rfl hwval hsub
    | bool b => exact pyEq_of_scalar_paths _ w rfl hwval hsub
    | num m => exact pyEq_of_scalar_paths _ w rfl hwval hsub
    | str s => exact pyEq_of_scalar_paths _ w rfl hwval hsub
    | obj subv =>
      cases w with
      | arr ys => exact Bool.noConfusion hwval
      | null =>
        exfalso
        exact not_scalar_paths_perm_obj subv Json.null rfl
          (by rw [treePaths] at hsub; exact hsub)
      | bool b =>
        exfalso
        exact not_scalar_paths_perm_obj subv (Json.bool b) rfl
          (by rw [treePaths] at hsub; exact hsub)
      | num m =>
        exfalso
        exact not_scalar_paths_perm_obj subv (Json.num m) rfl
          (by rw [treePaths] at hsub; exact hsub)
      | str s =>
        exfalso
        exact not_scalar_paths_perm_obj subv (Json.str s) rfl
          (by rw [treePaths] at hsub; exact hsub)
      | obj subw =>
        rw [trieVal, Bool.and_eq_true, Bool.and_eq_true] at hvval hwval
        have hsubf : trieRoot subv = true := by
          rw [trieRoot, hvval.1.2, hvval.2]
          rfl
        have hsubg : trieRoot subw = true := by
          rw [trieRoot, hwval.1.2, hwval.2]
          rfl
        have hsize2 : osize subv ≤ n := by
          have h1 := jsize_le_osize_of_mem fs k (Json.obj subv) hkv
          rw [jsize] at h1
          omega
        refine ih subv subw hsize2 hsubf hsubg ?_
        rw [treePaths, treePaths] at hsub
        exact hsub

/-- Wrapper for `pyEq_of_paths_perm_aux`. -/
theorem pyEq_of_paths_perm (fs gs : List (Str × Json))
    (hf : trieRoot fs = true) (hg : trieRoot gs = true)
    (hperm : (treePathsO fs).Perm (treePathsO gs)) :
    pyEq (Json.obj fs) (Json.obj gs) = true :=
  pyEq_of_paths_perm_aux (osize fs) fs gs (le_refl _) hf hg hperm

-- ---------------------------------------------------------------------------
-- Clean documents: the class of documents for which the round trip holds.
-- ---------------------------------------------------------------------------

mutual

/-- A document value is clean for a separator when it contains no sequence,
every nested mapping is nonempty with pairwise-distinct keys, and every key
is nonempty and free of the separator. -/
def cleanVal (sep : Char) : Json → Bool
  | .obj fs => !fs.isEmpty && nodupKeysB fs && cleanFields sep fs
  | .arr _ => false
  | _ => true

/-- `cleanVal` plus key sanity over a field list. -/
def cleanFields (sep : Char) : List (Str × Json) → Bool
  | [] => true
  | (k, v) :: fs =>
    !k.isEmpty && k.all (fun c => !(c = sep)) && cleanVal sep v &&
      cleanFields sep fs

end

theorem cleanFields_mem (sep : Char) (fs : List (Str × Json))
    (kv : Str × Json) (h : cleanFields sep fs = true) (hmem : kv ∈ fs) :
    kv.1 ≠ [] ∧ kv.1.all (fun c => !(c = sep)) = true ∧
      cleanVal sep kv.2 = true := by
  induction fs with
  | nil => cases hmem
  | cons kv0 rest ih =>
    obtain ⟨k0, v0⟩ := kv0
    rw [cleanFields, Bool.and_eq_true, Bool.and_eq_true,
      Bool.and_eq_true] at h
    rcases List.mem_cons.mp hmem with hm | hm
    · subst hm
      refine ⟨?_, h.1.1.2, h.1.2⟩
      have := h.1.1.1
      simpa [List.isEmpty_iff] using this
    · exact ih h.2 hm

/-- Cleanliness implies the trie invariant. -/
theorem trieFields_of_clean_aux (sep : Char) (n : Nat) :
    ∀ fs, osize fs ≤ n → cleanFields sep fs = true → trieFields fs = true := by
  induction n with
  | zero =>
    intro fs hsize _
    cases fs with
    | nil => rfl
    | cons kv rest =>
      obtain ⟨k, v⟩ := kv
      rw [osize] at hsize
      have := jsize_pos v
      omega
  | succ n ih =>
    intro fs hsize hclean
    cases fs with
    | nil => rfl
    | cons kv rest =>
      obtain ⟨k, v⟩ := kv
      rw [cleanFields, Bool.and_eq_true, Bool.and_eq_true,
        Bool.and_eq_true] at hclean
      rw [osize] at hsize
      rw [trieFields, Bool.and_eq_true]
      constructor
      · cases v with
        | arr xs => exact Bool.noConfusion hclean.1.2
        | obj sub =>
          have hcv := hclean.1.2
          rw [cleanVal, Bool.and_eq_true, Bool.and_eq_true] at hcv
          rw [trieVal, Bool.and_eq_true, Bool.and_eq_true]
          refine ⟨⟨hcv.1.1, hcv.1.2⟩, ?_⟩
          refine ih sub ?_ hcv.2
          rw [jsize] at hsize
          omega
        | null => rfl
        | bool b => rfl
        | num m => rfl
        | str s => rfl
      · refine ih rest ?_ hclean.2
        have := jsize_pos v
        omega

/-- Every scalar path of a clean field list consists of nonempty,
separator-free segments. -/
theorem paths_segments_clean_aux (sep : Char) (n : Nat) :
    ∀ fs, osize fs ≤ n → cleanFields sep fs = true →
    ∀ q ∈ treePathsO fs, q.1 ≠ [] ∧
      ∀ s ∈ q.1, s ≠ [] ∧ s.all (fun c => !(c = sep)) = true := by
  induction n with
  | zero =>
    intro fs hsize _ q hq
    cases fs with
    | nil => cases hq
    | cons kv rest =>
      obtain ⟨k, v⟩ := kv
      rw [osize] at hsize
      have := jsize_pos v
      omega
  | succ n ih =>
    intro fs hsize hclean q hq
    cases fs with
    | nil => cases hq
    | cons kv rest =>
      obtain ⟨k, v⟩ := kv
      rw [cleanFields, Bool.and_eq_true, Bool.and_eq_true,
        Bool.and_eq_true] at hclean
      rw [osize] at hsize
      have hkne : k ≠ [] := by
        have := hclean.1.1.1
        simpa [List.isEmpty_iff] using this
      have hkfree := hclean.1.1.2
      rw [treePathsO] at hq
      rcases List.mem_append.mp hq with hm | hm
      · rcases List.mem_map.mp hm with ⟨pv, hpv, hpve⟩
        have hsegs : pv.1 = [] ∨
            (pv.1 ≠ [] ∧ ∀ s ∈ pv.1, s ≠ [] ∧
              s.all (fun c => !(c = sep)) = true) := by
          cases v with
          | arr xs => exact absurd hclean.1.2 (by rw [cleanVal]; simp)
          | obj sub =>
            right
            have hcv := hclean.1.2
            rw [cleanVal, Bool.and_eq_true, Bool.and_eq_true] at hcv
            refine ih sub ?_ hcv.2 pv (by rw [treePaths] at hpv; exact hpv)
            rw [jsize] at hsize
            omega
          | null =>
            left
            rw [treePaths_of_scalar Json.null rfl] at hpv
            rcases List.mem_singleton.mp hpv with h
            rw [h]
          | bool b =>
            left
            rw [treePaths_of_scalar (Json.bool b) rfl] at hpv
            rcases List.mem_singleton.mp hpv with h
            rw [h]
          | num m =>
            left
            rw [treePaths_of_scalar (Json.num m) rfl] at hpv
            rcases List.mem_singleton.mp hpv with h
            rw [h]
          | str s =>
            left
            rw [treePaths_of_scalar (Json.str s) rfl] at hpv
            rcases List.mem_singleton.mp hpv with h
            rw [h]
        rw [← hpve]
        refine ⟨by simp, ?_⟩
        intro s hs
        simp only at hs
        rcases List.mem_cons.mp hs with hsk | hsk
        · exact hsk ▸ ⟨hkne, hkfree⟩
        · rcases hsegs with he | ⟨_, hall⟩
          · rw [he] at hsk
            cases hsk
          · exact hall s hsk
      · refine ih rest ?_ hclean.2 q hm
        have := jsize_pos v
        omega

/-- Scalar paths carry scalar values. -/
theorem treePaths_snd_scalar_aux (n : Nat) :
    ∀ fs, osize fs ≤ n → trieFields fs = true →
    ∀ q ∈ treePathsO fs, isScalarB q.2 = true := by
  induction n with
  | zero =>
    intro fs hsize _ q hq
    cases fs with
    | nil => cases hq
    | cons kv rest =>
      obtain ⟨k, v⟩ := kv
      rw [osize] at hsize
      have := jsize_pos v
      omega
  | succ n ih =>
    intro fs hsize htf q hq
    cases fs with
    | nil => cases hq
    | cons kv rest =>
      obtain ⟨k, v⟩ := kv
      rw [trieFields, Bool.and_eq_true] at htf
      rw [osize] at hsize
      rw [treePathsO] at hq
      rcases List.mem_append.mp hq with hm | hm
      · rcases List.mem_map.mp hm with ⟨pv, hpv, hpve⟩
        have hval : isScalarB pv.2 = true := by
          cases v with
          | arr xs => exact absurd htf.1 (by rw [trieVal]; simp)
          | obj sub =>
            have hcv := htf.1
            rw [trieVal, Bool.and_eq_true, Bool.and_eq_true] at hcv
            refine ih sub ?_ hcv.2 pv (by rw [treePaths] at hpv; exact hpv)
            rw [jsize] at hsize
            omega
          | null =>
            rw [treePaths_of_scalar Json.null rfl] at hpv
            rw [List.mem_singleton.mp hpv]
            rfl
          | bool b =>
            rw [treePaths_of_scalar (Json.bool b) rfl] at hpv
            rw [List.mem_singleton.mp hpv]
            rfl
          | num m =>
            rw [treePaths_of_scalar (Json.num m) rfl] at hpv
            rw [List.mem_singleton.mp hpv]
            rfl
          | str s =>
            rw [treePaths_of_scalar (Json.str s) rfl] at hpv
            rw [List.mem_singleton.mp hpv]
            rfl
        rw [← hpve]
        exact hval
      · refine ih rest ?_ htf.2 q hm
        have := jsize_pos v
        omega

theorem segPreB_refl (p : List Str) : segPreB p p = true := by
  induction p with
  | nil => rfl
  | cons s rest ih => simp [segPreB, ih]

/-- The scalar paths of a trie are pairwise non-prefix-comparable. -/
theorem paths_pairwise_aux (n : Nat) :
    ∀ fs, osize fs ≤ n → trieRoot fs = true →
    List.Pairwise
      (fun a b : List Str × Json =>
        segPreB a.1 b.1 = false ∧ segPreB b.1 a.1 = false)
      (treePathsO fs) := by
  induction n with
  | zero =>
    intro fs hsize _
    cases fs with
    | nil => exact List.Pairwise.nil
    | cons kv rest =>
      obtain ⟨k, v⟩ := kv
      rw [osize] at hsize
      have := jsize_pos v
      omega
  | succ n ih =>
    intro fs hsize hroot
    rw [trieRoot, Bool.and_eq_true] at hroot
    cases fs with
    | nil => exact List.Pairwise.nil
    | cons kv rest =>
      obtain ⟨k, v⟩ := kv
      rw [osize] at hsize
      have hnd := hroot.1
      rw [nodupKeysB, Bool.and_eq_true] at hnd
      have htf := hroot.2
      rw [trieFields, Bool.and_eq_true] at htf
      rw [treePathsO, List.pairwise_append]
      refine ⟨?_, ?_, ?_⟩
      · rw [List.pairwise_map]
        have hinner : List.Pairwise
            (fun a b : List Str × Json =>
              segPreB a.1 b.1 = false ∧ segPreB b.1 a.1 = false)
            (treePaths v) := by
          cases v with
          | arr xs => exact absurd htf.1 (by rw [trieVal]; simp)
          | obj sub =>
            have hcv := htf.1
            rw [trieVal, Bool.and_eq_true, Bool.and_eq_true] at hcv
            rw [treePaths]
            refine ih sub ?_ (by rw [trieRoot, hcv.1.2, hcv.2]; rfl)
            rw [jsize] at hsize
            omega
          | null => rw [treePaths_of_scalar Json.null rfl]; simp
          | bool b => rw [treePaths_of_scalar (Json.bool b) rfl]; simp
          | num m => rw [treePaths_of_scalar (Json.num m) rfl]; simp
          | str s => rw [treePaths_of_scalar (Json.str s) rfl]; simp
        refine hinner.imp ?_
        intro a b hab
        rw [segPreB_cons, segPreB_cons]
        exact hab
      · refine ih rest ?_ ?_
        · have := jsize_pos v
          omega
        · rw [trieRoot, hnd.2, htf.2]
          rfl
      · intro a ha b hb
        rcases List.mem_map.mp ha with ⟨pv, _, hpve⟩
        rcases paths_cons_headed rest b hb with ⟨k2, p2, hb1⟩
        have hk2 : k2 ≠ k := by
          rcases head_mem_keys_of_path rest k2 p2 b.2
            (by rw [← hb1]; exact hb) with ⟨w, hw⟩
          intro hc
          have hmem2 : k2 ∈ rest.map Prod.fst :=
            (memD_iff_mem_keys rest k2).mp ((memD_iff_lookup rest k2).mpr ⟨w, hw⟩)
          have : rest.any (fun kv => kv.1 = k) = true :=
            List.any_eq_true.mpr (by
              rcases List.mem_map.mp hmem2 with ⟨kv2, hkv2, hkk⟩
              exact ⟨kv2, hkv2, by simp [hkk, hc]⟩)
          rw [this] at hnd
          exact Bool.noConfusion hnd.1
        constructor
        · rw [← hpve, hb1]
          simp only [segPreB]
          simp [Ne.symm hk2]
        · rw [← hpve, hb1]
          simp only [segPreB]
          simp [hk2]

-- ---------------------------------------------------------------------------
-- C1: the round trip of the tree transforms.
-- ---------------------------------------------------------------------------

theorem headOkB_of (p : List Str) (hne : p ≠ []) (hh : ∀ s ∈ p, s ≠ []) :
    headOkB p = true := by
  cases p with
  | nil => exact absurd rfl hne
  | cons s rest =>
    cases rest with
    | nil => rfl
    | cons t r2 =>
      show (!s.isEmpty) = true
      have hs : s ≠ [] := hh s (List.mem_cons_self _ _)
      cases s with
      | nil => exact absurd rfl hs
      | cons c cs => rfl

/-- Direction B of the round trip: a clean document (no sequences, nonempty
nested mappings, pairwise-distinct nonempty separator-free keys) survives
flatten-then-unflatten up to Python equality. -/
theorem unflatten_flatten_clean (fs : List (Str × Json))
    (hnd : nodupKeysB fs = true) (hclean : cleanFields '.' fs = true) :
    ∃ N, unflatten_json (flatten_json (Json.obj fs) [] '.') '.' = some N ∧
      pyEq (Json.obj N) (Json.obj fs) = true := by
  have htf : trieFields fs = true :=
    trieFields_of_clean_aux '.' (osize fs) fs (le_refl _) hclean
  have hroot : trieRoot fs = true := by
    rw [trieRoot, hnd, htf]
    rfl
  have hsegclean := paths_segments_clean_aux '.' (osize fs) fs (le_refl _) hclean
  have hscalars := treePaths_snd_scalar_aux (osize fs) fs (le_refl _) htf
  have hpw := paths_pairwise_aux (osize fs) fs (le_refl _) hroot
  have hjoin : ∀ q ∈ treePathsO fs,
      joinSegsFrom '.' [] q.1 = joinSegs '.' q.1 := by
    intro q hq
    rcases hsegclean q hq with ⟨hne, hall⟩
    exact joinSegsFrom_eq_joinSegs '.' q.1
      (headOkB_of q.1 hne (fun s hs => (hall s hs).1))
  have hsplit : ∀ q ∈ treePathsO fs,
      splitOnSep '.' (joinSegs '.' q.1) = q.1 := by
    intro q hq
    rcases hsegclean q hq with ⟨hne, hall⟩
    exact splitOnSep_joinSegs '.' q.1 hne (fun s hs => (hall s hs).2)
  have hFPmap : flatPairs '.' [] (Json.obj fs) =
      (treePathsO fs).map (fun pv => (joinSegsFrom '.' [] pv.1, pv.2)) := by
    simp only [flatPairs, treePaths]
  have hkeyinj : List.Pairwise (fun a b : List Str × Json =>
      joinSegsFrom '.' [] a.1 ≠ joinSegsFrom '.' [] b.1) (treePathsO fs) := by
    refine hpw.imp_of_mem ?_
    intro a b ha hb hab hc
    rw [hjoin a ha, hjoin b hb] at hc
    have he : a.1 = b.1 := by
      have h2 := congrArg (splitOnSep '.') hc
      rw [hsplit a ha, hsplit b hb] at h2
      exact h2
    rw [he, segPreB_refl] at hab
    exact Bool.noConfusion hab.1
  have hndflat : ((flatPairs '.' [] (Json.obj fs)).map Prod.fst).Nodup := by
    rw [hFPmap, List.map_map]
    exact List.pairwise_map.mpr hkeyinj
  have hflatperm := flatten_json_perm '.' (Json.obj fs) [] hndflat
  have hpwFlat : List.Pairwise (fun a b : Str × Json =>
      segPreB (splitOnSep '.' a.1) (splitOnSep '.' b.1) = false ∧
      segPreB (splitOnSep '.' b.1) (splitOnSep '.' a.1) = false)
      (flatten_json (Json.obj fs) [] '.') := by
    refine (hflatperm.pairwise_iff ?_).mpr ?_
    · intro x y hxy
      exact ⟨hxy.2, hxy.1⟩
    · rw [hFPmap, List.pairwise_map]
      refine hpw.imp_of_mem ?_
      intro a b ha hb hab
      constructor
      · show segPreB (splitOnSep '.' (joinSegsFrom '.' [] a.1))
            (splitOnSep '.' (joinSegsFrom '.' [] b.1)) = false
        rw [hjoin a ha, hjoin b hb, hsplit a ha, hsplit b hb]
        exact hab.1
      · show segPreB (splitOnSep '.' (joinSegsFrom '.' [] b.1))
            (splitOnSep '.' (joinSegsFrom '.' [] a.1)) = false
        rw [hjoin a ha, hjoin b hb, hsplit a ha, hsplit b hb]
        exact hab.2
  have hscFlat : ∀ kv ∈ flatten_json (Json.obj fs) [] '.',
      isScalarB kv.2 = true := by
    intro kv hkv
    have hm := hflatperm.subset hkv
    rw [hFPmap] at hm
    rcases List.mem_map.mp hm with ⟨pv, hpv, hpve⟩
    rw [← hpve]
    exact hscalars pv hpv
  have hacc0 : treePathsO ([] : List (Str × Json)) = [] := by
    simp [treePathsO]
  have hroot0 : trieRoot ([] : List (Str × Json)) = true := by
    simp [trieRoot, nodupKeysB, trieFields]
  rcases unflatten_fold_spec '.' (flatten_json (Json.obj fs) [] '.') []
      hroot0 hscFlat
      (by intro kv hkv q hq; rw [hacc0] at hq; cases hq)
      hpwFlat with ⟨N, hfold, hNroot, hNperm⟩
  have hfold2 : unflatten_json (flatten_json (Json.obj fs) [] '.') '.' =
      some N := hfold
  rw [hacc0, List.nil_append] at hNperm
  have hperm2 : (treePathsO N).Perm (treePathsO fs) := by
    refine hNperm.trans ?_
    refine (hflatperm.map _).trans ?_
    rw [hFPmap, List.map_map]
    have hpt : ∀ q ∈ treePathsO fs,
        ((fun kv : Str × Json => (splitOnSep '.' kv.1, kv.2)) ∘
          (fun pv : List Str × Json => (joinSegsFrom '.' [] pv.1, pv.2))) q =
          q := by
      intro q hq
      show (splitOnSep '.' (joinSegsFrom '.' [] q.1), q.2) = q
      rw [hjoin q hq, hsplit q hq]
    rw [List.map_congr_left hpt]
    simp
  exact ⟨N, hfold2, pyEq_of_paths_perm N fs hNroot hroot hperm2⟩

/-- Direction A of the round trip: a flat mapping with distinct compound
keys, scalar values, well-led segments and pairwise non-prefix-comparable
segment paths survives unflatten-then-flatten up to Python equality. -/
theorem flatten_unflatten_flat (F : List (Str × Json))
    (hnd : nodupKeysB F = true)
    (hsc : ∀ kv ∈ F, isScalarB kv.2 = true)
    (hhead : ∀ kv ∈ F, headOkB (splitOnSep '.' kv.1) = true)
    (hpw : List.Pairwise (fun a b : Str × Json =>
      segPreB (splitOnSep '.' a.1) (splitOnSep '.' b.1) = false ∧
      segPreB (splitOnSep '.' b.1) (splitOnSep '.' a.1) = false) F) :
    ∃ N, unflatten_json F '.' = some N ∧
      pyEq (Json.obj (flatten_json (Json.obj N) [] '.')) (Json.obj F) = true := by
  have hacc0 : treePathsO ([] : List (Str × Json)) = [] := by
    simp [treePathsO]
  have hroot0 : trieRoot ([] : List (Str × Json)) = true := by
    simp [trieRoot, nodupKeysB, trieFields]
  rcases unflatten_fold_spec '.' F [] hroot0 hsc
      (by intro kv hkv q hq; rw [hacc0] at hq; cases hq) hpw
    with ⟨N, hfold, hNroot, hNperm⟩
  have hfold2 : unflatten_json F '.' = some N := hfold
  rw [hacc0, List.nil_append] at hNperm
  have hjoinF : ∀ kv ∈ F,
      joinSegsFrom '.' [] (splitOnSep '.' kv.1) = kv.1 := by
    intro kv hkv
    rw [joinSegsFrom_eq_joinSegs '.' _ (hhead kv hkv), joinSegs_splitOnSep]
  have hFPN : flatPairs '.' [] (Json.obj N) =
      (treePathsO N).map (fun pv => (joinSegsFrom '.' [] pv.1, pv.2)) := by
    simp only [flatPairs, treePaths]
  have hmapjoin : ((treePathsO N).map
      (fun pv => (joinSegsFrom '.' [] pv.1, pv.2))).Perm F := by
    refine (hNperm.map _).trans ?_
    rw [List.map_map]
    have hpt : ∀ kv ∈ F,
        ((fun pv : List Str × Json => (joinSegsFrom '.' [] pv.1, pv.2)) ∘
          (fun kv : Str × Json => (splitOnSep '.' kv.1, kv.2))) kv = kv := by
      intro kv hkv
      show (joinSegsFrom '.' [] (splitOnSep '.' kv.1), kv.2) = kv
      rw [hjoinF kv hkv]
    rw [List.map_congr_left hpt]
    simp
  have hndN : ((flatPairs '.' [] (Json.obj N)).map Prod.fst).Nodup := by
    rw [hFPN]
    have hpm : (((treePathsO N).map
        (fun pv => (joinSegsFrom '.' [] pv.1, pv.2))).map Prod.fst).Perm
        (F.map Prod.fst) := hmapjoin.map _
    exact hpm.symm.nodup ((nodupKeysB_iff F).mp hnd)
  have hflatperm := flatten_json_perm '.' (Json.obj N) [] hndN
  have hflatF : (flatten_json (Json.obj N) [] '.').Perm F := by
    refine hflatperm.trans ?_
    rw [hFPN]
    exact hmapjoin
  refine ⟨N, hfold2, ?_⟩
  refine pyEq_obj_of_scalar_perm _ F hflatF hnd ?_
  intro kv hkv
  exact hsc kv (hflatF.subset hkv)

/-- The flat mapping used as the concrete round-trip witness. -/
def exC1F : List (Str × Json) :=
  [("car.type".toList, Json.str "sedan".toList),
   ("car.engine.power".toList, Json.num 300)]

/-- The clean nested document used as the concrete round-trip witness. -/
def exC1D : List (Str × Json) :=
  [("car".toList, Json.obj
    [("type".toList, Json.str "sedan".toList),
     ("engine".toList, Json.obj [("power".toList, Json.num 300)])])]

/-- C1 counterexample: the document mapping the key a to an empty nested
mapping contains no sequences, yet the flatten loop stores nothing for an
empty dict, so unflatten of the flattened document yields the empty mapping,
which is not Python-equal to the original document. -/
theorem C1_counterexample :
    unflatten_json
        (flatten_json (Json.obj [("a".toList, Json.obj [])]) [] '.') '.' =
      some [] ∧
    pyEq (Json.obj []) (Json.obj [("a".toList, Json.obj [])]) = false := by
  have hflat : flatten_json (Json.obj [("a".toList, Json.obj [])]) [] '.' =
      [] := by
    simp [flatten_json, flattenLoop, joinKey]
  constructor
  · rw [hflat]
    rfl
  · simp [pyEq]

/-- C1 (corrected): round trip of the tree transforms.  As stated the claim
fails: a document with an empty nested mapping contains no sequences yet does
not round-trip.  Amended: (A) for every flat mapping with pairwise-distinct
compound keys, scalar values, well-led key segments, and pairwise
non-prefix-comparable segment paths, unflattening succeeds and flattening
the result is Python-equal to the original flat mapping; (B) for every
document with pairwise-distinct keys that is clean for the separator (no
sequences, and every nested mapping nonempty with pairwise-distinct nonempty
separator-free keys), unflattening the flattened document succeeds and is
Python-equal to the original document. -/
theorem C1_roundtrip :
    (∀ F : List (Str × Json),
      nodupKeysB F = true →
      (∀ kv ∈ F, isScalarB kv.2 = true) →
      (∀ kv ∈ F, headOkB (splitOnSep '.' kv.1) = true) →
      List.Pairwise (fun a b : Str × Json =>
        segPreB (splitOnSep '.' a.1) (splitOnSep '.' b.1) = false ∧
        segPreB (splitOnSep '.' b.1) (splitOnSep '.' a.1) = false) F →
      ∃ N, unflatten_json F '.' = some N ∧
        pyEq (Json.obj (flatten_json (Json.obj N) [] '.'))
          (Json.obj F) = true) ∧
    (∀ fs : List (Str × Json),
      nodupKeysB fs = true → cleanFields '.' fs = true →
      ∃ N, unflatten_json (flatten_json (Json.obj fs) [] '.') '.' = some N ∧
        pyEq (Json.obj N) (Json.obj fs) = true) :=
  ⟨flatten_unflatten_flat, unflatten_flatten_clean⟩

/-- Witness for C1: both amended directions instantiated at concrete inputs,
with every hypothesis discharged by evaluation. -/
theorem C1_roundtrip_witness :
    (nodupKeysB exC1F = true ∧ nodupKeysB exC1D = true ∧
      cleanFields '.' exC1D = true) ∧
    (∃ N, unflatten_json exC1F '.' = some N ∧
      pyEq (Json.obj (flatten_json (Json.obj N) [] '.'))
        (Json.obj exC1F) = true) ∧
    (∃ N, unflatten_json (flatten_json (Json.obj exC1D) [] '.') '.' =
        some N ∧
      pyEq (Json.obj N) (Json.obj exC1D) = true) :=
  ⟨⟨by decide, by decide,
    by simp [exC1D, cleanFields, cleanVal, nodupKeysB]⟩,
   C1_roundtrip.1 exC1F (by decide) (by decide) (by decide) (by decide),
   C1_roundtrip.2 exC1D (by decide)
     (by simp [exC1D, cleanFields, cleanVal, nodupKeysB])⟩

end JsonEngine
